import Mathlib

/-!
Shallow embedding of the Proto sentiment-analysis core
(`src/data-loader.js` and `src/rnn.js`) in Lean 4, together with
theorems settling the specification claims about it.

Modelling conventions:
* JS numbers that are used as integer ids/counts become `Nat`;
  values that can be negative become `Int`; probabilities and split
  ratios become `ℚ` (the code never relies on float rounding for them).
* A JS value that may be `undefined` becomes an `Option`; the JS
  truthiness test `!x` on an optional number is `numFalsy`.
* JS objects used as string-keyed maps become association lists kept in
  insertion order, which is exactly the key-enumeration order of a JS
  object with non-integer string keys.
* Thrown exceptions become `Except String`.
* The TensorFlow.js model itself is external to the repository; a live
  model's forward pass is a parameter `predict : List Nat → ℚ`.
-/

namespace Proto

/-! ### data-loader.js : Tokenizer -/

/-- Characters kept by `_normalize`'s regex `[^a-z0-9'\s]+ → " "`:
lowercase ASCII letters, digits and the apostrophe (code 39).
Every other character (whitespace included, after the later collapse
`\s+ → " "` and trim) acts as a token separator. -/
def keptChar (c : Char) : Bool :=
  (97 ≤ c.toNat && c.toNat ≤ 122) || (48 ≤ c.toNat && c.toNat ≤ 57) || c.toNat == 39

/-- `_normalize` (src/data-loader.js lines 34-41) lowercases, replaces the
runs matched by `[^a-z0-9'\s]+` with spaces, collapses whitespace and
trims, and the callers then split the result on single spaces.  The
composite effect is: the tokens are the maximal runs of kept characters
of the lowercased text.  `splitRuns` computes those runs directly
(`acc` holds the current run, reversed). -/
def splitRuns : List Char → List Char → List String
  | [], acc => if acc.isEmpty then [] else [String.mk acc.reverse]
  | c :: cs, acc =>
    let lc := c.toLower
    if keptChar lc then splitRuns cs (lc :: acc)
    else if acc.isEmpty then splitRuns cs acc
    else String.mk acc.reverse :: splitRuns cs []

/-- The fixed stopword set `_stop` (src/data-loader.js lines 19-31). -/
def stopwordList : List String :=
  ["a","an","the","and","or","if","in","on","for","to","from",
   "is","are","was","were","be","been","being","of","with","it",
   "this","that","these","those","at","by","as","but","what","which",
   "who","whom","into","out","up","down","over","under","again","further",
   "then","once","here","there","when","where","why","how","all","any",
   "both","each","few","more","most","other","some","such","no","nor",
   "not","only","own","same","so","than","too","very","can","will","just",
   "don","should","now","i","me","my","myself","we","our","ours","ourselves",
   "you","your","yours","yourself","yourselves","he","him","his","himself",
   "she","her","hers","herself","itself","they","them","their","theirs",
   "themselves","do","did","does","doing","have","has","had","having"]

/-- The `Tokenizer` class state (src/data-loader.js lines 5-32).
`wordIndex` / `indexWord` model the JS objects as insertion-ordered
association lists; `vocabSize` is `undefined` before `fitOnTexts` and is
modelled as `0` there (no claim reads it before fitting). -/
structure Tokenizer where
  numWords : Nat
  removeStopwords : Bool
  wordIndex : List (String × Nat)
  indexWord : List (Nat × String)
  vocabSize : Nat
  fitted : Bool
deriving Repr, DecidableEq

/-- The `Tokenizer` constructor with its defaults
(`numWords = 20000`, `removeStopwords = false`). -/
def mkTokenizer (numWords : Nat := 20000) (removeStopwords : Bool := false) :
    Tokenizer :=
  { numWords := numWords
    removeStopwords := removeStopwords
    wordIndex := [("<PAD>", 0), ("<OOV>", 1)]
    indexWord := [(0, "<PAD>"), (1, "<OOV>")]
    vocabSize := 0
    fitted := false }

/-- `_normalize` followed by the split on spaces, as a token list.
The `filter(w => w && ...)` guard of the stopword branch is subsumed:
`splitRuns` only produces non-empty runs. -/
def normalizeWords (tok : Tokenizer) (text : String) : List String :=
  let ws := splitRuns text.data []
  if tok.removeStopwords then ws.filter (fun w => !stopwordList.contains w) else ws

/-- `freq.set(w, (freq.get(w) || 0) + 1)` on an insertion-ordered map:
an existing key is updated in place, a new key is appended. -/
def bumpFreq (m : List (String × Nat)) (w : String) : List (String × Nat) :=
  match m with
  | [] => [(w, 1)]
  | p :: rest => if p.1 = w then (p.1, p.2 + 1) :: rest else p :: bumpFreq rest w

/-- `this.wordIndex[w] = idx` on the insertion-ordered map. -/
def setKey (m : List (String × Nat)) (w : String) (i : Nat) :
    List (String × Nat) :=
  match m with
  | [] => [(w, i)]
  | p :: rest => if p.1 = w then (w, i) :: rest else p :: setKey rest w i

/-- `this.indexWord[idx] = w` on the insertion-ordered map. -/
def setIdx (m : List (Nat × String)) (i : Nat) (w : String) :
    List (Nat × String) :=
  match m with
  | [] => [(i, w)]
  | p :: rest => if p.1 = i then (i, w) :: rest else p :: setIdx rest i w

/-- All tokens of the corpus, in corpus order: `fitOnTexts` iterates the
texts and, inside each, the tokens of the normalized text (an empty
normalization contributes nothing, exactly like `if (!norm) continue`). -/
def corpusTokens (tok : Tokenizer) (texts : List String) : List String :=
  (texts.map (normalizeWords tok)).flatten

/-- The frequency `Map` built by the first loop of `fitOnTexts`
(src/data-loader.js lines 44-52): insertion-ordered, keys in first-seen
order, values the corpus counts. -/
def countTokens (tok : Tokenizer) (texts : List String) : List (String × Nat) :=
  (corpusTokens tok texts).foldl bumpFreq []

/-- The comparator `(a, b) => b[1] - a[1]`: `a` may stay before `b`
exactly when `b`'s count is at most `a`'s (descending frequency). -/
def byFreqDesc (p q : String × Nat) : Prop := q.2 ≤ p.2

instance : DecidableRel byFreqDesc := fun p q => Nat.decLe q.2 p.2

instance : IsTotal (String × Nat) byFreqDesc :=
  ⟨fun p q => (Nat.le_total p.2 q.2).symm⟩

instance : IsTrans (String × Nat) byFreqDesc :=
  ⟨fun _ _ _ h h2 => Nat.le_trans h2 h⟩

/-- The id-assignment loop `let idx = 2; for (const w of top) ...`
(src/data-loader.js lines 58-63). -/
def assignIds : List String → Nat → List (String × Nat) → List (Nat × String) →
    List (String × Nat) × List (Nat × String)
  | [], _, wi, iw => (wi, iw)
  | w :: ws, idx, wi, iw => assignIds ws (idx + 1) (setKey wi w idx) (setIdx iw idx w)

/-- `fitOnTexts` (src/data-loader.js lines 43-66).  JS `Array.sort` is
stable and is modelled by `List.insertionSort` (stable); `Math.max(0,
numWords - 2)` is `Nat` truncated subtraction; `Object.keys(...).length`
is the association-list length (its keys stay distinct). -/
def fitOnTexts (tok : Tokenizer) (texts : List String) : Tokenizer :=
  let freq := countTokens tok texts
  let sorted := List.insertionSort byFreqDesc freq
  let limit := tok.numWords - 2
  let top := (sorted.take limit).map Prod.fst
  let maps := assignIds top 2 tok.wordIndex tok.indexWord
  { tok with
    wordIndex := maps.1
    indexWord := maps.2
    vocabSize := maps.1.length
    fitted := true }

/-- `this.wordIndex[w] ?? 1`, own-property reading: lookup among the
map entries with OOV id 1 as default.  This coincides with the faithful
plain-object lookup `lookupIdJS` (which also consults the
`Object.prototype` chain) on every token except the inherited key
`"constructor"`: see `lookupIdJS_agrees`. -/
def lookupId (m : List (String × Nat)) (w : String) : Nat :=
  match m.find? (fun p => p.1 == w) with
  | some p => p.2
  | none => 1

/-- The own property names of `Object.prototype`.  `wordIndex` is a
plain object literal (src/data-loader.js line 16), so a bracket lookup
that misses every own property continues along the prototype chain and
returns a non-nullish inherited value for exactly these keys.  Only
`"constructor"` consists solely of lowercase kept characters, so it is
the only one a normalized token can collide with; the rest are listed
for faithfulness of the lookup model itself. -/
def objectPrototypeKeys : List String :=
  ["constructor","hasOwnProperty","isPrototypeOf","propertyIsEnumerable",
   "toLocaleString","toString","valueOf","__defineGetter__",
   "__defineSetter__","__lookupGetter__","__lookupSetter__","__proto__"]

/-- A value `this.wordIndex[w] ?? 1` can evaluate to: an id number, or
a value inherited from `Object.prototype` (e.g. the `Object`
constructor function for the key `"constructor"`), which is not
nullish and therefore suppresses the `?? 1` default. -/
inductive JsLookup where
  | num (n : Nat)
  | inherited (key : String)
deriving Repr, DecidableEq

/-- `this.wordIndex[w] ?? 1` with faithful plain-object property
lookup (src/data-loader.js line 73): own properties first, then the
`Object.prototype` chain, whose hits are non-nullish, so the OOV
default 1 fires only when both miss. -/
def lookupIdJS (m : List (String × Nat)) (w : String) : JsLookup :=
  match m.find? (fun p => p.1 == w) with
  | some p => .num p.2
  | none =>
    if objectPrototypeKeys.contains w then .inherited w
    else .num 1

/-- One text's encoding: the `t => norm.split(" ").map(w => wordIndex[w] ?? 1)`
body of `textsToSequences` (an empty normalization yields `[]`, exactly
the `if (!norm) return []` branch). -/
def encodeOne (tok : Tokenizer) (t : String) : List Nat :=
  (normalizeWords tok t).map (lookupId tok.wordIndex)

/-- `textsToSequences` (src/data-loader.js lines 68-75); throws when the
tokenizer was not fitted. -/
def textsToSequences (tok : Tokenizer) (texts : List String) :
    Except String (List (List Nat)) :=
  if !tok.fitted then .error ("Tokenizer not fitted. Call fitOnTexts first.")
  else .ok (texts.map (encodeOne tok))

/-- One text's encoding under the faithful plain-object lookup. -/
def encodeOneJS (tok : Tokenizer) (t : String) : List JsLookup :=
  (normalizeWords tok t).map (lookupIdJS tok.wordIndex)

/-- `textsToSequences` under the faithful plain-object lookup. -/
def textsToSequencesJS (tok : Tokenizer) (texts : List String) :
    Except String (List (List JsLookup)) :=
  if !tok.fitted then .error ("Tokenizer not fitted. Call fitOnTexts first.")
  else .ok (texts.map (encodeOneJS tok))

/-- `padSequences` (src/data-loader.js lines 77-89): truncate to the
first `seqLen` ids, or right-pad with `0` (PAD). -/
def padSequences (sequences : List (List Nat)) (seqLen : Nat := 100) :
    List (List Nat) :=
  sequences.map fun s =>
    if seqLen ≤ s.length then s.take seqLen
    else s ++ List.replicate (seqLen - s.length) 0

/-! ### data-loader.js : seeded shuffle -/

/-- One call of the closure returned by `mulberry32` (src/data-loader.js
lines 129-136): returns the new captured state `s` and the 32-bit value
whose division by 2^32 is the returned float.  All JS bitwise operators
coerce their operands mod 2^32, so carrying the state mod 2^32 is exact;
`Math.imul` is multiplication mod 2^32. -/
def mulberryStep (s : Nat) : Nat × Nat :=
  let s2 := (s + 0x6d2b79f5) % 4294967296
  let t1 := ((s2 ^^^ (s2 >>> 15)) * (s2 ||| 1)) % 4294967296
  let t2 := (t1 + ((t1 ^^^ (t1 >>> 7)) * (t1 ||| 61)) % 4294967296) % 4294967296
  let t3 := t1 ^^^ t2
  (s2, t3 ^^^ (t3 >>> 14))

/-- The swap `[a[i], a[j]] = [a[j], a[i]]`.  (The loop only ever uses
in-range indices; out of range the JS destructuring is not exercised and
the list is returned unchanged.) -/
def listSwap {α : Type _} (l : List α) (i j : Nat) : List α :=
  match l.get? i, l.get? j with
  | some x, some y => (l.set i y).set j x
  | _, _ => l

/-- `Math.floor(rand() * (i + 1))` with `rand() = r / 2^32` : exact for
the array sizes at hand (< 2^21), so integer division. -/
def drawIndex (r : Nat) (i : Nat) : Nat := r * (i + 1) / 4294967296

/-- The Fisher-Yates loop of `shuffleInPlace` on a single array, indices
`i, i-1, ..., 1` (the first argument is the current index, i.e. the
loop variable `i`; it reaches the argument positions before `s` and the
array only so that the recursion is structural). -/
def shuffleOne {α : Type _} : Nat → Nat → List α → List α
  | 0, _, l => l
  | i + 1, s, l =>
    let p := mulberryStep s
    shuffleOne i p.1 (listSwap l (i + 1) (drawIndex p.2 (i + 1)))

/-- The same loop on the two arrays together (src/data-loader.js lines
138-142): the same `j` is used for both swaps. -/
def shuffleAux {α β : Type _} : Nat → Nat → List α → List β → List α × List β
  | 0, _, a, b => (a, b)
  | i + 1, s, a, b =>
    let p := mulberryStep s
    let j := drawIndex p.2 (i + 1)
    shuffleAux i p.1 (listSwap a (i + 1) j) (listSwap b (i + 1) j)

/-- `shuffleInPlace(a, b, seed = 1337)` (src/data-loader.js lines
128-143), value-level: returns the final contents of the two arrays. -/
def shuffleInPlace {α β : Type _} (a : List α) (b : List β)
    (seed : Nat := 1337) : List α × List β :=
  shuffleAux (a.length - 1) seed a b

/-- The trace of `(i, j)` pairs the loop swaps at, outermost first. -/
def shuffleTrace : Nat → Nat → List (Nat × Nat)
  | 0, _ => []
  | i + 1, s =>
    let p := mulberryStep s
    (i + 1, drawIndex p.2 (i + 1)) :: shuffleTrace i p.1

/-! ### data-loader.js : prepareTensors -/

/-- The observable outcome of `prepareTensors`: the rows of the tensors
it builds plus the post-call contents of the caller's `texts`/`labels`
arrays (which the function permutes in place). -/
structure PrepareResult where
  textsAfter : List String
  labelsAfter : List Nat
  xTrain : List (List Nat)
  xTest : List (List Nat)
  yTrain : List Nat
  yTest : List Nat
  vocabSize : Nat
  nTrain : Nat
  nTest : Nat
  total : Nat
deriving Repr, DecidableEq

/-- `prepareTensors` (src/data-loader.js lines 148-202).  The
`tf.tensor2d`/`tf.tensor1d` wrappers are external; the rows handed to
them are kept.  `Math.floor(N * testSplit)` on the rational split is
`Rat.floor`; `Math.max(1, ...)` is `Nat.max` (the floor is non-negative
here since `N ≥ 0` and the split ratio is non-negative in every call,
and `Int.toNat` is applied after the floor). -/
def prepareTensors (texts : List String) (labels : List Nat)
    (seqLen : Nat := 100) (maxVocab : Nat := 20000)
    (removeStopwords : Bool := false) (testSplit : ℚ := 0.2) :
    Except String PrepareResult :=
  if texts.isEmpty || labels.isEmpty then .error ("Empty dataset after parsing.")
  else if texts.length ≠ labels.length then
    .error ("Texts and labels length mismatch.")
  else
    let sh := shuffleInPlace texts labels 1337
    let tok := fitOnTexts (mkTokenizer maxVocab removeStopwords) sh.1
    match textsToSequences tok sh.1 with
    | .error e => .error e
    | .ok seqs =>
      let padded := padSequences seqs seqLen
      let N := padded.length
      let nTest := Nat.max 1 (((N : ℚ) * testSplit).floor).toNat
      let nTrain := N - nTest
      .ok { textsAfter := sh.1
            labelsAfter := sh.2
            xTrain := padded.take nTrain
            xTest := padded.drop nTrain
            yTrain := sh.2.take nTrain
            yTest := sh.2.drop nTrain
            vocabSize := tok.vocabSize
            nTrain := nTrain
            nTest := nTest
            total := N }

/-! ### rnn.js : model lifecycle and architecture -/

/-- A symbolic layer descriptor, mirroring the `tf.layers.*` calls of
`createModel`.  `inputDim`/`inputLength` are `Int` because the
validation lets negative values through to the layer constructor. -/
inductive Layer where
  | embedding (inputDim : Int) (outputDim : Nat) (inputLength : Int)
  | gru (units : Nat) (returnSequences : Bool) (dropout : ℚ)
  | bidirectional (inner : Layer) (mergeMode : String)
  | dense (units : Nat) (activation : String)
deriving Repr, DecidableEq

/-- Is the layer a `tf.layers.bidirectional` wrapper? -/
def Layer.isBidirectional : Layer → Bool
  | .bidirectional _ _ => true
  | _ => false

/-- The destructured parameter object of `createModel` with the source's
default values (src/rnn.js line 21): note `bidirectional = false`.
`vocabSize`/`seqLen` are optional to model a missing (undefined)
argument. -/
structure CreateArgs where
  vocabSize : Option Int := none
  seqLen : Option Int := none
  embedDim : Nat := 64
  gruUnits : Nat := 128
  dropout : ℚ := 0.2
  bidirectional : Bool := false
deriving Repr, DecidableEq

/-- JS truthiness test `!x` on an optional number: true for `undefined`
and for `0` (negative numbers are truthy). -/
def numFalsy : Option Int → Bool
  | none => true
  | some n => n == 0

/-- The module-level mutable state of rnn.js: the current model handle
plus the set of allocated-and-not-yet-disposed model handles (`live`),
which tracks what `dispose()` has and has not been called on. -/
structure RnnState where
  currentModel : Option Nat := none
  live : List Nat := []
  nextId : Nat := 0
deriving Repr, DecidableEq

/-- The `if (currentModel) { currentModel.dispose(); currentModel = null }`
pattern shared by `createModel` (lines 23-26) and `disposeModel`
(lines 253-258). -/
def disposeCurrent (st : RnnState) : RnnState :=
  match st.currentModel with
  | some m => { st with currentModel := none, live := st.live.erase m }
  | none => st

/-- `createModel` (src/rnn.js lines 21-61): validation, disposal of the
previous model, architecture assembly (`model.compile` configures the
optimizer/loss and does not change the layer stack), installation of the
new model as `currentModel`.  Returns the new handle, the layer stack
and the new module state. -/
def createModel (args : CreateArgs) (st : RnnState) :
    Except String (Nat × List Layer × RnnState) :=
  if numFalsy args.vocabSize || numFalsy args.seqLen then
    .error ("vocabSize and seqLen are required.")
  else
    let st1 := disposeCurrent st
    let gruLayer := Layer.gru args.gruUnits false args.dropout
    let layers :=
      [Layer.embedding (args.vocabSize.getD 0) args.embedDim (args.seqLen.getD 0)] ++
      [if args.bidirectional then Layer.bidirectional gruLayer ("concat") else gruLayer] ++
      [Layer.dense 1 ("sigmoid")]
    let mid := st1.nextId
    .ok (mid, layers,
      { st1 with currentModel := some mid, live := mid :: st1.live, nextId := mid + 1 })

/-- The parsed JSON of a saved model file, reduced to what `loadModel`
inspects: JS-truthiness of the three artifact sections and of the
tokenizer metadata. -/
structure ModelFileData where
  modelTopology : Bool
  weightSpecs : Bool
  weightData : Bool
  tokenizerMeta : Bool
deriving Repr, DecidableEq

/-- `loadModel` (src/rnn.js lines 202-250): validation of the file, then
`currentModel = m` — the previous model is NOT disposed, so its handle
stays in `live`. -/
def loadModel (file : Option ModelFileData) (st : RnnState) :
    Except String (Nat × RnnState) :=
  match file with
  | none => .error ("No file provided for loading.")
  | some f =>
    if !f.modelTopology || !f.weightSpecs || !f.weightData then
      .error ("Invalid model file format.")
    else if !f.tokenizerMeta then
      .error ("Model file is missing tokenizer metadata.")
    else
      let mid := st.nextId
      .ok (mid, { st with currentModel := some mid, live := mid :: st.live,
                          nextId := mid + 1 })

/-- `disposeModel` (src/rnn.js lines 253-258). -/
def disposeModel (st : RnnState) : RnnState := disposeCurrent st

/-! ### rnn.js : evaluation metrics -/

/-- The metric part of `evaluateModel`'s return value. -/
structure EvalMetrics where
  tp : Nat
  tn : Nat
  fp : Nat
  fn : Nat
  precision : ℚ
  -- the source's `recall` field (`recall` is a reserved word in Lean):
  recallScore : ℚ
  f1 : ℚ
  yPred : List Nat
deriving Repr, DecidableEq

/-- One iteration of the confusion-matrix loop (src/rnn.js lines
111-116): the `if/else if` chain on `(yTrue[i], yPred[i])`, accumulator
`(tp, tn, fp, fn)`. -/
def confusionStep (acc : Nat × Nat × Nat × Nat) (p : Nat × Nat) :
    Nat × Nat × Nat × Nat :=
  if p.1 = 1 ∧ p.2 = 1 then (acc.1 + 1, acc.2.1, acc.2.2.1, acc.2.2.2)
  else if p.1 = 0 ∧ p.2 = 0 then (acc.1, acc.2.1 + 1, acc.2.2.1, acc.2.2.2)
  else if p.1 = 0 ∧ p.2 = 1 then (acc.1, acc.2.1, acc.2.2.1 + 1, acc.2.2.2)
  else if p.1 = 1 ∧ p.2 = 0 then (acc.1, acc.2.1, acc.2.2.1, acc.2.2.2 + 1)
  else acc

/-- The confusion-matrix loop (src/rnn.js lines 110-116) over the
`(yTrue[i], yPred[i])` pairs. -/
def countConfusion (yTrue yPred : List Nat) : Nat × Nat × Nat × Nat :=
  (yTrue.zip yPred).foldl confusionStep (0, 0, 0, 0)

/-- The metric computation of `evaluateModel` (src/rnn.js lines
104-132): the batched inference that produces `yProb` is external (the
model predict call), so the function takes `yTrue` and `yProb` and
performs the thresholding, counting and guarded divisions of the
source. -/
def evaluateModel (yTrue : List Nat) (yProb : List ℚ) (threshold : ℚ := 0.5) :
    EvalMetrics :=
  let yPred := yProb.map fun p => if threshold ≤ p then 1 else 0
  let c := countConfusion yTrue yPred
  let precision : ℚ := if c.1 + c.2.2.1 = 0 then 0 else (c.1 : ℚ) / ((c.1 : ℚ) + (c.2.2.1 : ℚ))
  let recVal : ℚ := if c.1 + c.2.2.2 = 0 then 0 else (c.1 : ℚ) / ((c.1 : ℚ) + (c.2.2.2 : ℚ))
  let f1 : ℚ := if precision + recVal = 0 then 0
    else 2 * precision * recVal / (precision + recVal)
  { tp := c.1, tn := c.2.1, fp := c.2.2.1, fn := c.2.2.2
    precision := precision, recallScore := recVal, f1 := f1, yPred := yPred }

/-! ### rnn.js : predictText -/

/-- `predictText`'s return value `{prob, pred}`: `prob := none` models
`NaN`, `pred := none` models `null`. -/
structure PredictOut where
  prob : Option ℚ
  pred : Option Nat
deriving Repr, DecidableEq

/-- A constant forward pass, standing in for a concrete live model in
the concrete instances below. -/
def constHalf : List Nat → ℚ := fun _ => 1 / 2

/-- The single padded row `predictText` feeds to the model:
`padSequences(textsToSequences([text]), seqLen)[0]`. -/
def singlePaddedRow (tok : Tokenizer) (seqLen : Nat) (text : String) : List Nat :=
  (padSequences [encodeOne tok text] seqLen).headD []

/-- `predictText` (src/rnn.js lines 136-147).  The claim's premise "with
a live model" is modelled by passing the live model's forward pass
`predict` directly (the `!currentModel` throw is the no-model path).
`!text` on a string is true exactly for the empty string, so only `""`
takes the early-return; any other text (whitespace-only included) is
encoded, padded and run through the model. -/
def predictText (predict : List Nat → ℚ) (tok : Tokenizer) (seqLen : Nat)
    (threshold : ℚ) (text : String) : Except String PredictOut :=
  if text == "" then .ok { prob := none, pred := none }
  else
    match textsToSequences tok [text] with
    | .error e => .error e
    | .ok seqs =>
      let padded := padSequences seqs seqLen
      let p := predict (padded.headD [])
      .ok { prob := some p, pred := some (if threshold ≤ p then 1 else 0) }

/-! ### Association-map infrastructure for the fitted vocabulary -/

/-- The keys of an insertion-ordered association map (the
`Object.keys` / `Map` key enumeration order). -/
def mapKeys (m : List (String × Nat)) : List String := m.map Prod.fst

/-- The count the frequency map stores for `w` (`freq.get(w) || 0`). -/
def lookupCount (m : List (String × Nat)) (w : String) : Nat :=
  match m.find? (fun p => p.1 == w) with
  | some p => p.2
  | none => 0

/-- First occurrences of each string, in order, skipping those already
in `seen` — the key-enumeration order of an insertion-ordered map built
by repeated upsert starting from keys `seen`. -/
def firstOccurrencesAux (seen : List String) : List String → List String
  | [] => []
  | w :: ws =>
    if seen.contains w then firstOccurrencesAux seen ws
    else w :: firstOccurrencesAux (w :: seen) ws

/-- First occurrences of each string of the list, in order. -/
def firstOccurrences (l : List String) : List String :=
  firstOccurrencesAux [] l

/-- `contains` as membership (Boolean `Set.has` of the JS `Map`). -/
theorem contains_true_iff (l : List String) (a : String) :
    l.contains a = true ↔ a ∈ l := List.elem_iff

/-- Equal membership gives equal `contains`. -/
theorem contains_eq_of_mem_iff {s1 s2 : List String}
    (h : ∀ v, v ∈ s1 ↔ v ∈ s2) : ∀ v, s1.contains v = s2.contains v := by
  intro v
  by_cases hv : v ∈ s1
  · rw [(contains_true_iff s1 v).mpr hv, (contains_true_iff s2 v).mpr ((h v).mp hv)]
  · have h1 : s1.contains v = false := by
      rw [Bool.eq_false_iff]
      intro hc
      exact hv ((contains_true_iff s1 v).mp hc)
    have h2 : s2.contains v = false := by
      rw [Bool.eq_false_iff]
      intro hc
      exact hv ((h v).mpr ((contains_true_iff s2 v).mp hc))
    rw [h1, h2]

/-- Unfolding `firstOccurrencesAux` on a cons. -/
theorem firstOccurrencesAux_cons (seen : List String) (w : String)
    (ws : List String) :
    firstOccurrencesAux seen (w :: ws) =
      (if seen.contains w then firstOccurrencesAux seen ws
       else w :: firstOccurrencesAux (w :: seen) ws) := rfl

/-- Upserting an existing key leaves the key enumeration unchanged. -/
theorem mapKeys_bumpFreq_mem (m : List (String × Nat)) (w : String)
    (h : w ∈ mapKeys m) : mapKeys (bumpFreq m w) = mapKeys m := by
  induction m with
  | nil => simp [mapKeys] at h
  | cons p rest ih =>
    by_cases hp : p.1 = w
    · unfold bumpFreq
      rw [if_pos hp]
      simp [mapKeys]
    · unfold bumpFreq
      rw [if_neg hp]
      have hmem : w ∈ mapKeys rest := by
        rcases List.mem_cons.mp h with h2 | h2
        · exact absurd h2.symm hp
        · exact h2
      show p.1 :: mapKeys (bumpFreq rest w) = p.1 :: mapKeys rest
      rw [ih hmem]

/-- Upserting a new key appends it at the end. -/
theorem mapKeys_bumpFreq_not_mem (m : List (String × Nat)) (w : String)
    (h : w ∉ mapKeys m) : mapKeys (bumpFreq m w) = mapKeys m ++ [w] := by
  induction m with
  | nil => rfl
  | cons p rest ih =>
    have hp : p.1 ≠ w := by
      intro hcon
      exact h (by simp [mapKeys, hcon])
    have hrest : w ∉ mapKeys rest := by
      intro hcon
      apply h
      simp only [mapKeys, List.map_cons, List.mem_cons]
      exact Or.inr hcon
    unfold bumpFreq
    rw [if_neg hp]
    show p.1 :: mapKeys (bumpFreq rest w) = (p.1 :: mapKeys rest) ++ [w]
    rw [ih hrest]
    rfl

/-- Two seen-lists with the same `contains` function give the same
first-occurrence list. -/
theorem firstOccurrencesAux_congr (ws : List String) :
    ∀ (s1 s2 : List String), (∀ v, s1.contains v = s2.contains v) →
      firstOccurrencesAux s1 ws = firstOccurrencesAux s2 ws := by
  induction ws with
  | nil => intro s1 s2 _; rfl
  | cons w ws ih =>
    intro s1 s2 h
    rw [firstOccurrencesAux_cons, firstOccurrencesAux_cons, h w]
    by_cases hw : s2.contains w = true
    · rw [hw]
      simp only [if_true]
      exact ih s1 s2 h
    · rw [Bool.not_eq_true] at hw
      rw [hw]
      simp only [Bool.false_eq_true, if_false]
      rw [ih (w :: s1) (w :: s2) ?_]
      apply contains_eq_of_mem_iff
      intro v
      simp only [List.mem_cons]
      constructor
      · intro hv
        rcases hv with h2 | h2
        · exact Or.inl h2
        · exact Or.inr ((contains_true_iff s2 v).mp (h v ▸ (contains_true_iff s1 v).mpr h2))
      · intro hv
        rcases hv with h2 | h2
        · exact Or.inl h2
        · exact Or.inr ((contains_true_iff s1 v).mp ((h v).symm ▸ (contains_true_iff s2 v).mpr h2))

/-- Key enumeration of the frequency fold: the starting keys, then the
first occurrences of the new tokens. -/
theorem mapKeys_foldl_bumpFreq (ws : List String) :
    ∀ (m : List (String × Nat)),
      mapKeys (ws.foldl bumpFreq m) =
        mapKeys m ++ firstOccurrencesAux (mapKeys m) ws := by
  induction ws with
  | nil => intro m; simp [firstOccurrencesAux]
  | cons w ws ih =>
    intro m
    rw [List.foldl_cons, ih (bumpFreq m w), firstOccurrencesAux_cons]
    by_cases hw : w ∈ mapKeys m
    · have hc : (mapKeys m).contains w = true := (contains_true_iff _ _).mpr hw
      rw [hc, mapKeys_bumpFreq_mem m w hw]
      simp only [if_true]
    · have hc : (mapKeys m).contains w = false := by
        rw [Bool.eq_false_iff]
        intro hcon
        exact hw ((contains_true_iff _ _).mp hcon)
      rw [hc, mapKeys_bumpFreq_not_mem m w hw]
      simp only [Bool.false_eq_true, if_false]
      have haux : firstOccurrencesAux (mapKeys m ++ [w]) ws =
          firstOccurrencesAux (w :: mapKeys m) ws := by
        apply firstOccurrencesAux_congr
        apply contains_eq_of_mem_iff
        intro v
        simp only [List.mem_append, List.mem_cons, List.not_mem_nil, or_false]
        exact or_comm
      rw [haux, List.append_assoc]
      rfl

/-- Members of the first-occurrence list come from the token list and
were not already seen. -/
theorem firstOccurrencesAux_mem (ws : List String) :
    ∀ (seen : List String) (v : String), v ∈ firstOccurrencesAux seen ws →
      v ∈ ws ∧ seen.contains v = false := by
  induction ws with
  | nil => intro seen v h; exact absurd h (by simp [firstOccurrencesAux])
  | cons w ws ih =>
    intro seen v h
    rw [firstOccurrencesAux_cons] at h
    by_cases hw : seen.contains w = true
    · rw [hw] at h
      simp only [if_true] at h
      have := ih seen v h
      exact ⟨List.mem_cons_of_mem w this.1, this.2⟩
    · rw [Bool.not_eq_true] at hw
      rw [hw] at h
      simp only [Bool.false_eq_true, if_false] at h
      rcases List.mem_cons.mp h with h2 | h2
      · subst h2
        exact ⟨List.mem_cons_self v ws, hw⟩
      · have := ih (w :: seen) v h2
        refine ⟨List.mem_cons_of_mem w this.1, ?_⟩
        have hcons := this.2
        rw [Bool.eq_false_iff] at hcons ⊢
        intro hcon
        exact hcons ((contains_true_iff _ _).mpr
          (List.mem_cons_of_mem w ((contains_true_iff _ _).mp hcon)))

/-- Every token of the list is seen or appears in the first-occurrence
list. -/
theorem firstOccurrencesAux_complete (ws : List String) :
    ∀ (seen : List String) (v : String), v ∈ ws →
      seen.contains v = true ∨ v ∈ firstOccurrencesAux seen ws := by
  induction ws with
  | nil => intro seen v h; exact absurd h (List.not_mem_nil v)
  | cons w ws ih =>
    intro seen v h
    rw [firstOccurrencesAux_cons]
    by_cases hw : seen.contains w = true
    · rw [hw]
      simp only [if_true]
      rcases List.mem_cons.mp h with h2 | h2
      · subst h2
        exact Or.inl hw
      · exact ih seen v h2
    · rw [Bool.not_eq_true] at hw
      rw [hw]
      simp only [Bool.false_eq_true, if_false]
      rcases List.mem_cons.mp h with h2 | h2
      · subst h2
        exact Or.inr (List.mem_cons_self v _)
      · rcases ih (w :: seen) v h2 with h3 | h3
        · by_cases hvw : v = w
          · subst hvw
            exact Or.inr (List.mem_cons_self v _)
          · left
            have hmem := (contains_true_iff _ _).mp h3
            rcases List.mem_cons.mp hmem with h4 | h4
            · exact absurd h4 hvw
            · exact (contains_true_iff _ _).mpr h4
        · exact Or.inr (List.mem_cons_of_mem w h3)

/-- The first-occurrence list has no duplicates. -/
theorem firstOccurrencesAux_nodup (ws : List String) :
    ∀ (seen : List String), (firstOccurrencesAux seen ws).Nodup := by
  induction ws with
  | nil => intro seen; simp [firstOccurrencesAux]
  | cons w ws ih =>
    intro seen
    rw [firstOccurrencesAux_cons]
    by_cases hw : seen.contains w = true
    · rw [hw]
      simp only [if_true]
      exact ih seen
    · rw [Bool.not_eq_true] at hw
      rw [hw]
      simp only [Bool.false_eq_true, if_false]
      refine List.nodup_cons.mpr ⟨?_, ih (w :: seen)⟩
      intro hcon
      have := (firstOccurrencesAux_mem ws (w :: seen) w hcon).2
      rw [Bool.eq_false_iff] at this
      exact this ((contains_true_iff _ _).mpr (List.mem_cons_self w seen))

/-- Upserting `w` increments its stored count. -/
theorem lookupCount_bumpFreq_self (m : List (String × Nat)) (w : String) :
    lookupCount (bumpFreq m w) w = lookupCount m w + 1 := by
  induction m with
  | nil =>
    show lookupCount [(w, 1)] w = lookupCount [] w + 1
    unfold lookupCount
    rw [List.find?_cons_of_pos _ (by simp)]
    rfl
  | cons p rest ih =>
    by_cases hp : p.1 = w
    · unfold bumpFreq
      rw [if_pos hp]
      unfold lookupCount
      rw [List.find?_cons_of_pos _ (by simp [hp]),
        List.find?_cons_of_pos _ (by simp [hp])]
    · unfold bumpFreq
      rw [if_neg hp]
      unfold lookupCount
      rw [List.find?_cons_of_neg _ (by simp [hp]),
        List.find?_cons_of_neg _ (by simp [hp])]
      exact ih

/-- Upserting `w` leaves every other count unchanged. -/
theorem lookupCount_bumpFreq_ne (m : List (String × Nat)) (w v : String)
    (hne : v ≠ w) : lookupCount (bumpFreq m w) v = lookupCount m v := by
  induction m with
  | nil =>
    show lookupCount [(w, 1)] v = lookupCount [] v
    unfold lookupCount
    rw [List.find?_cons_of_neg _ (by simp; intro h; exact hne h.symm)]
  | cons p rest ih =>
    by_cases hp : p.1 = w
    · unfold bumpFreq
      rw [if_pos hp]
      have hpv : p.1 ≠ v := by
        intro h
        exact hne (h.symm.trans hp)
      unfold lookupCount
      rw [List.find?_cons_of_neg _ (by simp [hpv]),
        List.find?_cons_of_neg _ (by simp [hpv])]
    · unfold bumpFreq
      rw [if_neg hp]
      by_cases hpv : p.1 = v
      · unfold lookupCount
        rw [List.find?_cons_of_pos _ (by simp [hpv]),
          List.find?_cons_of_pos _ (by simp [hpv])]
      · unfold lookupCount
        rw [List.find?_cons_of_neg _ (by simp [hpv]),
          List.find?_cons_of_neg _ (by simp [hpv])]
        exact ih

/-- The frequency fold adds the list count of each token to its stored
count. -/
theorem lookupCount_foldl_bumpFreq (ws : List String) :
    ∀ (m : List (String × Nat)) (v : String),
      lookupCount (ws.foldl bumpFreq m) v = lookupCount m v + ws.count v := by
  induction ws with
  | nil => intro m v; simp
  | cons w ws ih =>
    intro m v
    rw [List.foldl_cons, ih (bumpFreq m w) v]
    by_cases hv : v = w
    · subst hv
      rw [lookupCount_bumpFreq_self, List.count_cons_self]
      omega
    · rw [lookupCount_bumpFreq_ne m w v hv, List.count_cons_of_ne hv]

/-- The frequency map stores exactly the corpus counts. -/
theorem lookupCount_countTokens (tok : Tokenizer) (texts : List String)
    (v : String) :
    lookupCount (countTokens tok texts) v = (corpusTokens tok texts).count v := by
  unfold countTokens
  rw [lookupCount_foldl_bumpFreq]
  show 0 + List.count v (corpusTokens tok texts) = _
  omega

/-- On a map with distinct keys, the stored count of a present entry is
that entry. -/
theorem lookupCount_of_mem (m : List (String × Nat)) (w : String) (c : Nat)
    (hnodup : (mapKeys m).Nodup) (hmem : (w, c) ∈ m) :
    lookupCount m w = c := by
  induction m with
  | nil => exact absurd hmem (List.not_mem_nil _)
  | cons p rest ih =>
    rcases List.mem_cons.mp hmem with h2 | h2
    · subst h2
      unfold lookupCount
      rw [List.find?_cons_of_pos _ (by simp)]
    · have hkey : w ∈ mapKeys rest :=
        List.mem_map.mpr ⟨(w, c), h2, rfl⟩
      have hp : p.1 ≠ w := by
        intro hcon
        have := (List.nodup_cons.mp hnodup).1
        exact this (hcon ▸ hkey)
      unfold lookupCount
      rw [List.find?_cons_of_neg _ (by simp [hp])]
      exact ih (List.nodup_cons.mp hnodup).2 h2

/-- Unfolding `splitRuns` on a cons with arbitrary accumulator. -/
theorem splitRuns_cons (c : Char) (cs acc : List Char) :
    splitRuns (c :: cs) acc =
      (if keptChar c.toLower then splitRuns cs (c.toLower :: acc)
       else if acc.isEmpty then splitRuns cs acc
       else String.mk acc.reverse :: splitRuns cs []) := rfl

/-- Every character of every token produced by the run splitter is a
kept character (the tokens are runs of `[a-z0-9']`). -/
theorem splitRuns_chars (cs : List Char) :
    ∀ (acc : List Char), (∀ c ∈ acc, keptChar c = true) →
      ∀ w ∈ splitRuns cs acc, ∀ ch ∈ w.data, keptChar ch = true := by
  induction cs with
  | nil =>
    intro acc hacc w hw ch hch
    unfold splitRuns at hw
    by_cases he : acc.isEmpty = true
    · rw [he] at hw
      simp at hw
    · rw [Bool.not_eq_true] at he
      rw [he] at hw
      simp only [Bool.false_eq_true, if_false, List.mem_singleton] at hw
      subst hw
      have : ch ∈ acc.reverse := hch
      exact hacc ch (List.mem_reverse.mp this)
  | cons c cs ih =>
    intro acc hacc w hw ch hch
    rw [splitRuns_cons] at hw
    by_cases hk : keptChar c.toLower = true
    · rw [hk] at hw
      simp only [if_true] at hw
      refine ih (c.toLower :: acc) ?_ w hw ch hch
      intro d hd
      rcases List.mem_cons.mp hd with h2 | h2
      · exact h2 ▸ hk
      · exact hacc d h2
    · rw [Bool.not_eq_true] at hk
      rw [hk] at hw
      simp only [Bool.false_eq_true, if_false] at hw
      by_cases he : acc.isEmpty = true
      · rw [he] at hw
        simp only [if_true] at hw
        exact ih acc hacc w hw ch hch
      · rw [Bool.not_eq_true] at he
        rw [he] at hw
        simp only [Bool.false_eq_true, if_false] at hw
        rcases List.mem_cons.mp hw with h2 | h2
        · subst h2
          exact hacc ch (List.mem_reverse.mp hch)
        · exact ih [] (by simp) w h2 ch hch

/-- Every corpus token consists of kept characters only. -/
theorem corpusTokens_chars (tok : Tokenizer) (texts : List String)
    (w : String) (hw : w ∈ corpusTokens tok texts) :
    ∀ ch ∈ w.data, keptChar ch = true := by
  unfold corpusTokens at hw
  rcases List.mem_flatten.mp hw with ⟨ws, hws, hwmem⟩
  rcases List.mem_map.mp hws with ⟨t, -, ht⟩
  subst ht
  unfold normalizeWords at hwmem
  by_cases hrs : tok.removeStopwords = true
  · rw [hrs] at hwmem
    simp only [if_true] at hwmem
    exact splitRuns_chars t.data [] (by simp) w (List.mem_of_mem_filter hwmem)
  · rw [Bool.not_eq_true] at hrs
    rw [hrs] at hwmem
    simp only [Bool.false_eq_true, if_false] at hwmem
    exact splitRuns_chars t.data [] (by simp) w hwmem

/-- No corpus token is one of the reserved keys `"<PAD>"`, `"<OOV>"`. -/
theorem corpusTokens_ne_reserved (tok : Tokenizer) (texts : List String)
    (w : String) (hw : w ∈ corpusTokens tok texts) :
    w ≠ ("<PAD>") ∧ w ≠ ("<OOV>") := by
  have hchars := corpusTokens_chars tok texts w hw
  constructor
  · intro hcon
    subst hcon
    exact absurd hchars (by decide)
  · intro hcon
    subst hcon
    exact absurd hchars (by decide)

/-- Inserting an entry into a list never reorders the entries with any
given count: the inserted entry goes in front of the equal-count
entries it is inserted before, because the comparator only lets it pass
strictly larger counts.  (Stability of one insertion step.) -/
theorem filter_orderedInsert (x : String × Nat) (l : List (String × Nat))
    (c : Nat) :
    (List.orderedInsert byFreqDesc x l).filter (fun p => p.2 == c) =
      (if x.2 = c then x :: l.filter (fun p => p.2 == c)
       else l.filter (fun p => p.2 == c)) := by
  rw [List.orderedInsert_eq_take_drop, List.filter_append, List.filter_cons]
  have htake : (l.takeWhile fun b => decide ¬ byFreqDesc x b).filter
      (fun p => p.2 == c) = [] ∨ x.2 ≠ c := by
    by_cases hx : x.2 = c
    · left
      rw [List.filter_eq_nil_iff]
      intro b hb hbc
      have hdec := List.mem_takeWhile_imp hb
      have hgt : ¬ byFreqDesc x b := of_decide_eq_true hdec
      unfold byFreqDesc at hgt
      have hbc2 : b.2 = c := by simpa using hbc
      omega
    · exact Or.inr hx
  by_cases hx : x.2 = c
  · rw [if_pos hx]
    have hnil : (l.takeWhile fun b => decide ¬ byFreqDesc x b).filter
        (fun p => p.2 == c) = [] := by
      rcases htake with h | h
      · exact h
      · exact absurd hx h
    rw [hnil]
    have hxc : (x.2 == c) = true := by simpa using hx
    rw [hxc]
    simp only [if_true, List.nil_append]
    have hsplit : l.filter (fun p => p.2 == c) =
        (l.takeWhile fun b => decide ¬ byFreqDesc x b).filter (fun p => p.2 == c) ++
        (l.dropWhile fun b => decide ¬ byFreqDesc x b).filter (fun p => p.2 == c) := by
      rw [← List.filter_append, List.takeWhile_append_dropWhile]
    rw [hsplit, hnil, List.nil_append]
  · rw [if_neg hx]
    have hxc : (x.2 == c) = false := by simpa using hx
    rw [hxc]
    simp only [Bool.false_eq_true, if_false]
    rw [← List.filter_append, List.takeWhile_append_dropWhile]

/-- Stability of the sort: restricted to any fixed count, the sorted
order is exactly the map order (first-seen order). -/
theorem filter_insertionSort (l : List (String × Nat)) (c : Nat) :
    (List.insertionSort byFreqDesc l).filter (fun p => p.2 == c) =
      l.filter (fun p => p.2 == c) := by
  induction l with
  | nil => rfl
  | cons x l ih =>
    show (List.orderedInsert byFreqDesc x (List.insertionSort byFreqDesc l)).filter
        (fun p => p.2 == c) = (x :: l).filter (fun p => p.2 == c)
    rw [filter_orderedInsert, List.filter_cons]
    by_cases hx : x.2 = c
    · rw [if_pos hx, ih]
      have hxc : (x.2 == c) = true := by simpa using hx
      rw [hxc]
      simp only [if_true]
    · rw [if_neg hx, ih]
      have hxc : (x.2 == c) = false := by simpa using hx
      rw [hxc]
      simp only [Bool.false_eq_true, if_false]

/-- Writing a fresh key into the word-index map appends it. -/
theorem setKey_append (m : List (String × Nat)) (w : String) (i : Nat)
    (h : w ∉ mapKeys m) : setKey m w i = m ++ [(w, i)] := by
  induction m with
  | nil => rfl
  | cons p rest ih =>
    have hp : p.1 ≠ w := by
      intro hcon
      exact h (by simp [mapKeys, hcon])
    have hrest : w ∉ mapKeys rest := by
      intro hcon
      apply h
      simp only [mapKeys, List.map_cons, List.mem_cons]
      exact Or.inr hcon
    unfold setKey
    rw [if_neg hp, ih hrest]
    rfl

/-- The id-assignment loop writes fresh distinct keys with consecutive
ids starting at `idx`, appending them in order. -/
theorem assignIds_fst (ws : List String) :
    ∀ (idx : Nat) (wi : List (String × Nat)) (iw : List (Nat × String)),
      (∀ w ∈ ws, w ∉ mapKeys wi) → ws.Nodup →
      (assignIds ws idx wi iw).1 =
        wi ++ (List.enumFrom idx ws).map (fun p => (p.2, p.1)) := by
  induction ws with
  | nil => intro idx wi iw _ _; simp [assignIds]
  | cons w ws ih =>
    intro idx wi iw hfresh hnodup
    show (assignIds ws (idx + 1) (setKey wi w idx) (setIdx iw idx w)).1 = _
    have hw : w ∉ mapKeys wi := hfresh w (List.mem_cons_self w ws)
    have hfresh2 : ∀ v ∈ ws, v ∉ mapKeys (setKey wi w idx) := by
      intro v hv
      rw [setKey_append wi w idx hw]
      intro hcon
      unfold mapKeys at hcon
      rw [List.map_append] at hcon
      rcases List.mem_append.mp hcon with h2 | h2
      · exact hfresh v (List.mem_cons_of_mem w hv) h2
      · have hvw : v = w := by simpa using h2
        exact (List.nodup_cons.mp hnodup).1 (hvw ▸ hv)
    rw [ih (idx + 1) (setKey wi w idx) (setIdx iw idx w) hfresh2
      (List.nodup_cons.mp hnodup).2]
    rw [setKey_append wi w idx hw, List.append_assoc]
    rfl

/-! ## Helper lemmas -/

/-- `numFalsy` holds exactly for a missing or zero number. -/
theorem numFalsy_iff (o : Option Int) : numFalsy o = true ↔ o = none ∨ o = some 0 := by
  cases o with
  | none => simp [numFalsy]
  | some n => simp [numFalsy]

/-- A pair with predicted label 0 never increments `tp` or `fp`. -/
theorem confusionStep_no_positive (acc : Nat × Nat × Nat × Nat) (p : Nat × Nat)
    (hp : p.2 = 0) :
    (confusionStep acc p).1 = acc.1 ∧ (confusionStep acc p).2.2.1 = acc.2.2.1 := by
  rcases p with ⟨a, b⟩
  simp only at hp
  subst hp
  unfold confusionStep
  split_ifs with h1 h2 h3 h4 <;> simp_all

/-- If every predicted label among the pairs is 0, the confusion fold
leaves `tp` and `fp` at their accumulator values. -/
theorem foldl_confusion_no_positives :
    ∀ (pairs : List (Nat × Nat)) (acc : Nat × Nat × Nat × Nat),
      (∀ pr ∈ pairs, pr.2 = 0) →
      (pairs.foldl confusionStep acc).1 = acc.1 ∧
      (pairs.foldl confusionStep acc).2.2.1 = acc.2.2.1 := by
  intro pairs
  induction pairs with
  | nil => intro acc _; exact ⟨rfl, rfl⟩
  | cons pr rest ih =>
    intro acc h
    have hpr := h pr (List.mem_cons_self pr rest)
    have hstep := confusionStep_no_positive acc pr hpr
    have hrest := ih (confusionStep acc pr) (fun q hq => h q (List.mem_cons_of_mem pr hq))
    simp only [List.foldl_cons]
    exact ⟨hrest.1.trans hstep.1, hrest.2.trans hstep.2⟩

/-- Moving `xs[j]` to the front of `xs.set j x` is a permutation of
`x :: xs`. -/
theorem get_cons_set_perm {α : Type _} (xs : List α) :
    ∀ (j : Nat) (hj : j < xs.length) (x : α),
      (xs.get ⟨j, hj⟩ :: xs.set j x).Perm (x :: xs) := by
  induction xs with
  | nil => intro j hj x; exact absurd hj (by simp)
  | cons y ys ih =>
    intro j hj x
    cases j with
    | zero => exact List.Perm.swap x y ys
    | succ j =>
      have hj2 : j < ys.length := by simpa using hj
      have step1 : (ys.get ⟨j, hj2⟩ :: y :: ys.set j x).Perm
          (y :: ys.get ⟨j, hj2⟩ :: ys.set j x) :=
        List.Perm.swap y (ys.get ⟨j, hj2⟩) (ys.set j x)
      have step2 : (y :: ys.get ⟨j, hj2⟩ :: ys.set j x).Perm (y :: x :: ys) :=
        List.Perm.cons y (ih j hj2 x)
      exact (step1.trans step2).trans (List.Perm.swap x y ys)

/-- Exchanging the elements at two in-range positions permutes the
list. -/
theorem set_set_swap_perm {α : Type _} (l : List α) :
    ∀ (i j : Nat) (hi : i < l.length) (hj : j < l.length),
      ((l.set i (l.get ⟨j, hj⟩)).set j (l.get ⟨i, hi⟩)).Perm l := by
  induction l with
  | nil => intro i j hi _; exact absurd hi (by simp)
  | cons y ys ih =>
    intro i j hi hj
    cases i with
    | zero =>
      cases j with
      | zero => exact List.Perm.refl _
      | succ j =>
        have hj2 : j < ys.length := by simpa using hj
        exact get_cons_set_perm ys j hj2 y
    | succ i =>
      cases j with
      | zero =>
        have hi2 : i < ys.length := by simpa using hi
        exact get_cons_set_perm ys i hi2 y
      | succ j =>
        have hi2 : i < ys.length := by simpa using hi
        have hj2 : j < ys.length := by simpa using hj
        exact List.Perm.cons y (ih i j hi2 hj2)

/-- `listSwap` always returns a permutation of its input. -/
theorem listSwap_perm {α : Type _} (l : List α) (i j : Nat) :
    (listSwap l i j).Perm l := by
  rcases hgi : l.get? i with _ | x
  · unfold listSwap
    rw [hgi]
  · rcases hgj : l.get? j with _ | y
    · unfold listSwap
      rw [hgi, hgj]
    · unfold listSwap
      rw [hgi, hgj]
      obtain ⟨hi, hx⟩ := List.get?_eq_some.mp hgi
      obtain ⟨hj, hy⟩ := List.get?_eq_some.mp hgj
      rw [← hx, ← hy]
      exact set_set_swap_perm l i j hi hj

/-- `listSwap` preserves length. -/
theorem listSwap_length {α : Type _} (l : List α) (i j : Nat) :
    (listSwap l i j).length = l.length := by
  rcases hgi : l.get? i with _ | x <;> rcases hgj : l.get? j with _ | y <;>
    (unfold listSwap; rw [hgi, hgj]; try simp)

/-- Indexing into a zip is the pairing of the component lookups. -/
theorem zip_get? {α β : Type _} :
    ∀ (a : List α) (b : List β) (i : Nat),
      (a.zip b).get? i = (a.get? i).bind fun x => (b.get? i).map fun y => (x, y) := by
  intro a
  induction a with
  | nil => intro b i; simp
  | cons p as ih =>
    intro b i
    cases b with
    | nil => simp
    | cons q bs =>
      cases i with
      | zero => simp
      | succ i => simpa using ih bs i

/-- `set` distributes over `zip` when the value set is a pair. -/
theorem zip_set {α β : Type _} :
    ∀ (a : List α) (b : List β) (i : Nat) (x : α) (y : β),
      (a.zip b).set i (x, y) = (a.set i x).zip (b.set i y) := by
  intro a
  induction a with
  | nil => intro b i x y; simp
  | cons p as ih =>
    intro b i x y
    cases b with
    | nil => simp
    | cons q bs =>
      cases i with
      | zero => simp
      | succ i => simpa using ih bs i x y

/-- For equal-length lists, the same swap on the zip is the zip of the
component swaps. -/
theorem listSwap_zip {α β : Type _} (a : List α) (b : List β) (i j : Nat)
    (hlen : a.length = b.length) :
    listSwap (a.zip b) i j = (listSwap a i j).zip (listSwap b i j) := by
  rcases hai : a.get? i with _ | xi
  · have hbi : b.get? i = none := by
      rw [List.get?_eq_none] at hai ⊢
      omega
    have hzi : (a.zip b).get? i = none := by rw [zip_get?, hai]; rfl
    unfold listSwap
    rw [hai, hbi, hzi]
  · rcases hbi : b.get? i with _ | yi
    · exfalso
      have h1 := (List.get?_eq_some.mp hai).1
      rw [List.get?_eq_none] at hbi
      omega
    · rcases haj : a.get? j with _ | xj
      · have hbj : b.get? j = none := by
          rw [List.get?_eq_none] at haj ⊢
          omega
        have hzj : (a.zip b).get? j = none := by rw [zip_get?, haj]; rfl
        have hzi : (a.zip b).get? i = some (xi, yi) := by
          rw [zip_get?, hai, hbi]; rfl
        unfold listSwap
        rw [hai, hbi, haj, hbj, hzi, hzj]
      · rcases hbj : b.get? j with _ | yj
        · exfalso
          have h1 := (List.get?_eq_some.mp haj).1
          rw [List.get?_eq_none] at hbj
          omega
        · have hzi : (a.zip b).get? i = some (xi, yi) := by
            rw [zip_get?, hai, hbi]; rfl
          have hzj : (a.zip b).get? j = some (xj, yj) := by
            rw [zip_get?, haj, hbj]; rfl
          unfold listSwap
          rw [hai, hbi, haj, hbj, hzi, hzj]
          show ((a.zip b).set i (xj, yj)).set j (xi, yi) =
            ((a.set i xj).set j xi).zip ((b.set i yj).set j yi)
          rw [zip_set a b i xj yj, zip_set (a.set i xj) (b.set i yj) j xi yi]

/-- Unfolding `shuffleOne` at a positive index. -/
theorem shuffleOne_succ {α : Type _} (s : Nat) (l : List α) (n : Nat) :
    shuffleOne (n + 1) s l =
      shuffleOne n (mulberryStep s).1
        (listSwap l (n + 1) (drawIndex (mulberryStep s).2 (n + 1))) := rfl

/-- Unfolding `shuffleAux` at a positive index. -/
theorem shuffleAux_succ {α β : Type _} (s : Nat) (a : List α) (b : List β)
    (n : Nat) :
    shuffleAux (n + 1) s a b =
      shuffleAux n (mulberryStep s).1
        (listSwap a (n + 1) (drawIndex (mulberryStep s).2 (n + 1)))
        (listSwap b (n + 1) (drawIndex (mulberryStep s).2 (n + 1))) := rfl

/-- Unfolding `shuffleTrace` at a positive index. -/
theorem shuffleTrace_succ (s n : Nat) :
    shuffleTrace (n + 1) s =
      (n + 1, drawIndex (mulberryStep s).2 (n + 1)) ::
        shuffleTrace n (mulberryStep s).1 := rfl

/-- The two-array Fisher-Yates loop acts on the arrays independently:
it is the single-array loop on each, with the same random draws. -/
theorem shuffleAux_eq {α β : Type _} :
    ∀ (n s : Nat) (a : List α) (b : List β),
      shuffleAux n s a b = (shuffleOne n s a, shuffleOne n s b) := by
  intro n
  induction n with
  | zero => intro s a b; rfl
  | succ n ih =>
    intro s a b
    rw [shuffleAux_succ, shuffleOne_succ, shuffleOne_succ]
    exact ih _ _ _

/-- The single-array loop commutes with `zip` on equal-length lists. -/
theorem shuffleOne_zip {α β : Type _} :
    ∀ (n s : Nat) (a : List α) (b : List β), a.length = b.length →
      shuffleOne n s (a.zip b) = (shuffleOne n s a).zip (shuffleOne n s b) := by
  intro n
  induction n with
  | zero => intro s a b _; rfl
  | succ n ih =>
    intro s a b hlen
    rw [shuffleOne_succ, shuffleOne_succ, shuffleOne_succ,
      listSwap_zip a b _ _ hlen]
    exact ih _ _ _ (by rw [listSwap_length, listSwap_length, hlen])

/-- The loop output is a permutation of the input array. -/
theorem shuffleOne_perm {α : Type _} :
    ∀ (n s : Nat) (l : List α), (shuffleOne n s l).Perm l := by
  intro n
  induction n with
  | zero => intro s l; exact List.Perm.refl l
  | succ n ih =>
    intro s l
    rw [shuffleOne_succ]
    exact (ih _ _).trans (listSwap_perm l _ _)

/-- The generator output is a 32-bit value. -/
theorem mulberryStep_snd_lt (s : Nat) : (mulberryStep s).2 < 4294967296 := by
  have hlt : ∀ x : Nat, x % 4294967296 < 4294967296 :=
    fun x => Nat.mod_lt _ (by norm_num)
  have hxor : ∀ a b : Nat, a < 4294967296 → b < 4294967296 →
      (a ^^^ b) < 4294967296 := by
    intro a b ha hb
    have h32 : (4294967296 : Nat) = 2 ^ 32 := by norm_num
    rw [h32] at ha hb ⊢
    exact Nat.xor_lt_two_pow ha hb
  have hshift : ∀ n k : Nat, n >>> k ≤ n := by
    intro n k
    rw [Nat.shiftRight_eq_div_pow]
    exact Nat.div_le_self n (2 ^ k)
  have key : ∀ u v : Nat, u < 4294967296 → v < 4294967296 →
      ((u ^^^ v) ^^^ ((u ^^^ v) >>> 14)) < 4294967296 := by
    intro u v h1 h2
    exact hxor _ _ (hxor _ _ h1 h2)
      (lt_of_le_of_lt (hshift _ _) (hxor _ _ h1 h2))
  exact key _ _ (hlt _) (hlt _)

/-- Each drawn swap index lies in `[0, i]`. -/
theorem drawIndex_le (r i : Nat) (hr : r < 4294967296) : drawIndex r i ≤ i := by
  unfold drawIndex
  have hlt : r * (i + 1) < (i + 1) * 4294967296 := by
    rw [Nat.mul_comm (i + 1) 4294967296]
    exact Nat.mul_lt_mul_of_lt_of_le hr (Nat.le_refl _) (by omega)
  have := (Nat.div_lt_iff_lt_mul (by norm_num : (0:Nat) < 4294967296)).mpr hlt
  omega

/-- Every swap in the trace is at a pair `(i, j)` with `j ≤ i` and
`1 ≤ i ≤ n` — the Fisher-Yates pass from the last index down. -/
theorem shuffleTrace_bounds :
    ∀ (n s : Nat) (pr : Nat × Nat), pr ∈ shuffleTrace n s →
      pr.2 ≤ pr.1 ∧ 1 ≤ pr.1 ∧ pr.1 ≤ n := by
  intro n
  induction n with
  | zero => intro s pr h; simp [shuffleTrace] at h
  | succ n ih =>
    intro s pr h
    rw [shuffleTrace_succ] at h
    rcases List.mem_cons.mp h with heq | hmem
    · subst heq
      refine ⟨drawIndex_le _ _ (mulberryStep_snd_lt s), by omega, by omega⟩
    · have := ih _ pr hmem
      exact ⟨this.1, this.2.1, Nat.le_succ_of_le this.2.2⟩

/-- The loop performs exactly the swaps of the trace, in order. -/
theorem shuffleOne_eq_trace_fold {α : Type _} :
    ∀ (n s : Nat) (l : List α),
      shuffleOne n s l =
        (shuffleTrace n s).foldl (fun acc pr => listSwap acc pr.1 pr.2) l := by
  intro n
  induction n with
  | zero => intro s l; rfl
  | succ n ih =>
    intro s l
    rw [shuffleOne_succ, shuffleTrace_succ]
    simp only [List.foldl_cons]
    exact ih _ _

/-! ## Claims -/

/-- C1 counterexample: starting from a fresh module state, `createModel`
allocates model 0, and a subsequent successful `loadModel` installs
model 1 as `currentModel` while model 0 is still live (never disposed):
the live set `[1, 0]` has two members, so two live models coexist,
refuting the claim that every operation installing a new current model
disposes the previous one first. -/
theorem loadModel_two_live_models :
    createModel { vocabSize := some 10, seqLen := some 5 } ({} : RnnState) =
      .ok (0, [Layer.embedding 10 64 5, Layer.gru 128 false 0.2,
               Layer.dense 1 ("sigmoid")],
           { currentModel := some 0, live := [0], nextId := 1 }) ∧
    loadModel (some { modelTopology := true, weightSpecs := true,
                      weightData := true, tokenizerMeta := true })
        { currentModel := some 0, live := [0], nextId := 1 } =
      .ok (1, { currentModel := some 1, live := [1, 0], nextId := 2 }) ∧
    ¬ ([1, 0] : List Nat).length ≤ 1 := by
  refine ⟨rfl, rfl, by decide⟩

/-- C1 amended: `createModel` does dispose the previously held current
model (its handle is erased from the live set) before the new model
becomes current, but `loadModel` installs the loaded model as current
without disposing the previous one — the old handle stays live. -/
theorem model_disposal_amended :
    (∀ (args : CreateArgs) (st : RnnState) (m mid : Nat) (layers : List Layer)
       (st2 : RnnState),
       st.currentModel = some m →
       createModel args st = .ok (mid, layers, st2) →
       st2.currentModel = some mid ∧ st2.live = mid :: st.live.erase m) ∧
    (∀ (f : ModelFileData) (st : RnnState) (mid : Nat) (st2 : RnnState),
       loadModel (some f) st = .ok (mid, st2) →
       st2.currentModel = some mid ∧ st2.live = mid :: st.live) := by
  constructor
  · intro args st m mid layers st2 hm hok
    unfold createModel at hok
    by_cases hg : (numFalsy args.vocabSize || numFalsy args.seqLen) = true
    · simp [hg] at hok
    · rw [Bool.not_eq_true] at hg
      simp only [hg, Bool.false_eq_true, if_false] at hok
      simp only [Except.ok.injEq, Prod.mk.injEq] at hok
      obtain ⟨hmid, -, hst⟩ := hok
      subst hst
      subst hmid
      refine ⟨rfl, ?_⟩
      simp [disposeCurrent, hm]
  · intro f st mid st2 hok
    unfold loadModel at hok
    by_cases h1 : (!f.modelTopology || !f.weightSpecs || !f.weightData) = true
    · simp [h1] at hok
    · rw [Bool.not_eq_true] at h1
      simp only [h1, Bool.false_eq_true, if_false] at hok
      by_cases h2 : (!f.tokenizerMeta) = true
      · simp [h2] at hok
      · rw [Bool.not_eq_true] at h2
        simp only [h2, Bool.false_eq_true, if_false, Except.ok.injEq,
          Prod.mk.injEq] at hok
        obtain ⟨hmid, hst⟩ := hok
        subst hst
        subst hmid
        exact ⟨rfl, rfl⟩

/-- C1 amended, witness: the amended statement applied to a concrete
state holding model 7 as current: `createModel` erases 7; `loadModel`
keeps it. -/
theorem model_disposal_amended_witness :
    ({ currentModel := some 7, live := [7], nextId := 8 } : RnnState).currentModel
        = some 7 ∧
    createModel { vocabSize := some 4, seqLen := some 2 }
        { currentModel := some 7, live := [7], nextId := 8 } =
      .ok (8, [Layer.embedding 4 64 2, Layer.gru 128 false 0.2,
               Layer.dense 1 ("sigmoid")],
           { currentModel := some 8, live := [8], nextId := 9 }) ∧
    ({ currentModel := some 8, live := [8], nextId := 9 } : RnnState).currentModel
        = some 8 ∧
    ({ currentModel := some 8, live := [8], nextId := 9 } : RnnState).live
        = 8 :: ([7] : List Nat).erase 7 ∧
    loadModel (some { modelTopology := true, weightSpecs := true,
                      weightData := true, tokenizerMeta := true })
        { currentModel := some 7, live := [7], nextId := 8 } =
      .ok (8, { currentModel := some 8, live := [8, 7], nextId := 9 }) ∧
    ({ currentModel := some 8, live := [8, 7], nextId := 9 } : RnnState).live
        = 8 :: ([7] : List Nat) := by
  refine ⟨rfl, rfl, ?_, ?_, rfl, ?_⟩
  · exact (model_disposal_amended.1 { vocabSize := some 4, seqLen := some 2 }
      { currentModel := some 7, live := [7], nextId := 8 } 7 8
      [Layer.embedding 4 64 2, Layer.gru 128 false 0.2, Layer.dense 1 ("sigmoid")]
      { currentModel := some 8, live := [8], nextId := 9 } rfl rfl).1
  · exact (model_disposal_amended.1 { vocabSize := some 4, seqLen := some 2 }
      { currentModel := some 7, live := [7], nextId := 8 } 7 8
      [Layer.embedding 4 64 2, Layer.gru 128 false 0.2, Layer.dense 1 ("sigmoid")]
      { currentModel := some 8, live := [8], nextId := 9 } rfl rfl).2
  · exact (model_disposal_amended.2
      { modelTopology := true, weightSpecs := true,
        weightData := true, tokenizerMeta := true }
      { currentModel := some 7, live := [7], nextId := 8 } 8
      { currentModel := some 8, live := [8, 7], nextId := 9 } rfl).2

/-- C2 counterexample: calling `createModel` with only `vocabSize` and
`seqLen` (every other argument left to its default) produces the layer
stack `[embedding, gru, dense]` with a bare GRU layer — no
`bidirectional` wrapper anywhere — refuting the claim that the default
architecture is bidirectional. -/
theorem createModel_default_not_bidirectional :
    createModel { vocabSize := some 10, seqLen := some 5 } ({} : RnnState) =
      .ok (0, [Layer.embedding 10 64 5, Layer.gru 128 false 0.2,
               Layer.dense 1 ("sigmoid")],
           { currentModel := some 0, live := [0], nextId := 1 }) ∧
    ([Layer.embedding 10 64 5, Layer.gru 128 false 0.2,
      Layer.dense 1 ("sigmoid")].all
        (fun l => !l.isBidirectional)) = true := by
  refine ⟨rfl, by decide⟩

/-- C2 amended: the default of the `bidirectional` parameter is `false`:
when `createModel` is called without an explicit `bidirectional`
argument (and with valid `vocabSize`/`seqLen`), the gated-recurrent
layer is added directly and no layer of the result is a bidirectional
wrapper. -/
theorem createModel_default_unidirectional (v s : Int) (st : RnnState)
    (hv : v ≠ 0) (hs : s ≠ 0) :
    createModel { vocabSize := some v, seqLen := some s } st =
      .ok ((disposeCurrent st).nextId,
        [Layer.embedding v 64 s, Layer.gru 128 false 0.2,
         Layer.dense 1 ("sigmoid")],
        { currentModel := some (disposeCurrent st).nextId,
          live := (disposeCurrent st).nextId :: (disposeCurrent st).live,
          nextId := (disposeCurrent st).nextId + 1 }) ∧
    ([Layer.embedding v 64 s, Layer.gru 128 false 0.2,
      Layer.dense 1 ("sigmoid")].all (fun l => !l.isBidirectional)) = true := by
  constructor
  · have hv2 : numFalsy (some v) = false := by
      simp [numFalsy]; exact hv
    have hs2 : numFalsy (some s) = false := by
      simp [numFalsy]; exact hs
    unfold createModel
    simp only [hv2, hs2, Bool.or_self, Bool.false_eq_true, if_false]
    rfl
  · simp [Layer.isBidirectional]

/-- C2 amended, witness: the amended statement at `vocabSize = 10`,
`seqLen = 5` on a fresh state. -/
theorem createModel_default_unidirectional_witness :
    (10 : Int) ≠ 0 ∧ (5 : Int) ≠ 0 ∧
    (createModel { vocabSize := some 10, seqLen := some 5 } ({} : RnnState) =
      .ok ((disposeCurrent ({} : RnnState)).nextId,
        [Layer.embedding 10 64 5, Layer.gru 128 false 0.2,
         Layer.dense 1 ("sigmoid")],
        { currentModel := some (disposeCurrent ({} : RnnState)).nextId,
          live := (disposeCurrent ({} : RnnState)).nextId ::
            (disposeCurrent ({} : RnnState)).live,
          nextId := (disposeCurrent ({} : RnnState)).nextId + 1 })) := by
  refine ⟨by decide, by decide,
    (createModel_default_unidirectional 10 5 {} (by decide) (by decide)).1⟩

/-- C3 counterexample: `createModel` with `vocabSize = -1` (negative)
and `seqLen = 3` does NOT throw: the JS guard `!vocabSize || !seqLen`
only catches missing or zero values, negative numbers are truthy, so a
model is constructed (with the nonsensical `inputDim = -1` passed on to
the embedding layer), refuting the claim that every non-positive
`vocabSize` fails with a `ConfigError`. -/
theorem createModel_accepts_negative_vocabSize :
    createModel { vocabSize := some (-1), seqLen := some 3 } ({} : RnnState) =
      .ok (0, [Layer.embedding (-1) 64 3, Layer.gru 128 false 0.2,
               Layer.dense 1 ("sigmoid")],
           { currentModel := some 0, live := [0], nextId := 1 }) ∧
    ∀ e, createModel { vocabSize := some (-1), seqLen := some 3 }
        ({} : RnnState) ≠ .error e := by
  refine ⟨rfl, ?_⟩
  intro e h
  rw [show createModel { vocabSize := some (-1), seqLen := some 3 }
      ({} : RnnState) =
      .ok (0, [Layer.embedding (-1) 64 3, Layer.gru 128 false 0.2,
               Layer.dense 1 ("sigmoid")],
           { currentModel := some 0, live := [0], nextId := 1 }) from rfl]
    at h
  exact Except.noConfusion h

/-- C3 amended: `createModel` throws its configuration error exactly
when `vocabSize` or `seqLen` is missing (`undefined`) or zero; negative
values pass the validation. -/
theorem createModel_guard_amended (args : CreateArgs) (st : RnnState) :
    createModel args st = .error ("vocabSize and seqLen are required.") ↔
      (args.vocabSize = none ∨ args.vocabSize = some 0 ∨
       args.seqLen = none ∨ args.seqLen = some 0) := by
  unfold createModel
  by_cases hg : (numFalsy args.vocabSize || numFalsy args.seqLen) = true
  · simp only [hg, if_true, true_iff]
    rcases Bool.or_eq_true_iff.mp hg with h | h
    · rcases (numFalsy_iff _).mp h with h2 | h2
      · exact Or.inl h2
      · exact Or.inr (Or.inl h2)
    · rcases (numFalsy_iff _).mp h with h2 | h2
      · exact Or.inr (Or.inr (Or.inl h2))
      · exact Or.inr (Or.inr (Or.inr h2))
  · rw [Bool.not_eq_true] at hg
    simp only [hg, Bool.false_eq_true, if_false]
    constructor
    · intro h; exact Except.noConfusion h
    · intro h
      exfalso
      rcases Bool.or_eq_false_iff.mp hg with ⟨h1, h2⟩
      rcases h with h | h | h | h
      · rw [(numFalsy_iff args.vocabSize).mpr (Or.inl h)] at h1; exact absurd h1 (by decide)
      · rw [(numFalsy_iff args.vocabSize).mpr (Or.inr h)] at h1; exact absurd h1 (by decide)
      · rw [(numFalsy_iff args.seqLen).mpr (Or.inl h)] at h2; exact absurd h2 (by decide)
      · rw [(numFalsy_iff args.seqLen).mpr (Or.inr h)] at h2; exact absurd h2 (by decide)

/-- C5: every row of `padSequences(sequences, seqLen)` has length
exactly `seqLen`; row `i` is the first `seqLen` ids of input row `i`
when that row is long enough, and otherwise the whole row right-padded
with `0` (PAD). -/
theorem padSequences_rows_spec (seqLen : Nat) (_h : 1 ≤ seqLen)
    (seqs : List (List Nat)) :
    (padSequences seqs seqLen).length = seqs.length ∧
    (∀ row ∈ padSequences seqs seqLen, row.length = seqLen) ∧
    (∀ i, i < seqs.length →
      (padSequences seqs seqLen).getD i [] =
        (if seqLen ≤ (seqs.getD i []).length then (seqs.getD i []).take seqLen
         else seqs.getD i [] ++ List.replicate (seqLen - (seqs.getD i []).length) 0)) := by
  refine ⟨by simp [padSequences], ?_, ?_⟩
  · intro row hrow
    rcases List.mem_map.mp hrow with ⟨s, -, hs⟩
    by_cases hl : seqLen ≤ s.length
    · rw [← hs]
      simp only [hl, if_true]
      simpa using Nat.min_eq_left hl
    · rw [← hs]
      simp only [hl, if_false]
      rw [List.length_append, List.length_replicate]
      omega
  · intro i hi
    have hi2 : i < (padSequences seqs seqLen).length := by
      simpa [padSequences] using hi
    rw [List.getD_eq_getElem _ _ hi2, List.getD_eq_getElem _ _ hi]
    simp [padSequences]

/-- C5 witness: `seqLen = 3` on the rows `[5,6,7,8]` (truncated) and
`[9]` (padded). -/
theorem padSequences_rows_spec_witness :
    (1 : Nat) ≤ 3 ∧
    (∀ row ∈ padSequences [[5, 6, 7, 8], [9]] 3, row.length = 3) ∧
    (padSequences [[5, 6, 7, 8], [9]] 3).length = 2 := by
  refine ⟨by decide, (padSequences_rows_spec 3 (by decide) _).2.1, ?_⟩
  have h := (padSequences_rows_spec 3 (by decide) [[5, 6, 7, 8], [9]]).1
  simpa using h

/-- C8: the metrics of every evaluation satisfy the guarded formulas:
precision is `tp/(tp+fp)` and `0` when `tp+fp = 0`; recall is
`tp/(tp+fn)` and `0` when `tp+fn = 0`; F1 is `2PR/(P+R)` and `0` when
`P+R = 0`; and a test set with zero positive predictions (every
probability below the threshold) yields precision `0`, not an error. -/
theorem evaluateModel_guards_spec (yTrue : List Nat) (yProb : List ℚ) (th : ℚ) :
    ((evaluateModel yTrue yProb th).tp + (evaluateModel yTrue yProb th).fp = 0 →
      (evaluateModel yTrue yProb th).precision = 0) ∧
    ((evaluateModel yTrue yProb th).tp + (evaluateModel yTrue yProb th).fp ≠ 0 →
      (evaluateModel yTrue yProb th).precision =
        ((evaluateModel yTrue yProb th).tp : ℚ) /
          (((evaluateModel yTrue yProb th).tp : ℚ) +
           ((evaluateModel yTrue yProb th).fp : ℚ))) ∧
    ((evaluateModel yTrue yProb th).tp + (evaluateModel yTrue yProb th).fn = 0 →
      (evaluateModel yTrue yProb th).recallScore = 0) ∧
    ((evaluateModel yTrue yProb th).tp + (evaluateModel yTrue yProb th).fn ≠ 0 →
      (evaluateModel yTrue yProb th).recallScore =
        ((evaluateModel yTrue yProb th).tp : ℚ) /
          (((evaluateModel yTrue yProb th).tp : ℚ) +
           ((evaluateModel yTrue yProb th).fn : ℚ))) ∧
    ((evaluateModel yTrue yProb th).precision +
        (evaluateModel yTrue yProb th).recallScore = 0 →
      (evaluateModel yTrue yProb th).f1 = 0) ∧
    ((evaluateModel yTrue yProb th).precision +
        (evaluateModel yTrue yProb th).recallScore ≠ 0 →
      (evaluateModel yTrue yProb th).f1 =
        2 * (evaluateModel yTrue yProb th).precision *
          (evaluateModel yTrue yProb th).recallScore /
          ((evaluateModel yTrue yProb th).precision +
           (evaluateModel yTrue yProb th).recallScore)) ∧
    ((∀ p ∈ yProb, p < th) → (evaluateModel yTrue yProb th).precision = 0) := by
  have htp : (evaluateModel yTrue yProb th).tp =
      (countConfusion yTrue (yProb.map fun p => if th ≤ p then 1 else 0)).1 := rfl
  have hfp : (evaluateModel yTrue yProb th).fp =
      (countConfusion yTrue (yProb.map fun p => if th ≤ p then 1 else 0)).2.2.1 := rfl
  have hpre : (evaluateModel yTrue yProb th).precision =
      (if (evaluateModel yTrue yProb th).tp + (evaluateModel yTrue yProb th).fp = 0
       then 0
       else ((evaluateModel yTrue yProb th).tp : ℚ) /
         (((evaluateModel yTrue yProb th).tp : ℚ) +
          ((evaluateModel yTrue yProb th).fp : ℚ))) := rfl
  have hrec : (evaluateModel yTrue yProb th).recallScore =
      (if (evaluateModel yTrue yProb th).tp + (evaluateModel yTrue yProb th).fn = 0
       then 0
       else ((evaluateModel yTrue yProb th).tp : ℚ) /
         (((evaluateModel yTrue yProb th).tp : ℚ) +
          ((evaluateModel yTrue yProb th).fn : ℚ))) := rfl
  have hf1 : (evaluateModel yTrue yProb th).f1 =
      (if (evaluateModel yTrue yProb th).precision +
            (evaluateModel yTrue yProb th).recallScore = 0
       then 0
       else 2 * (evaluateModel yTrue yProb th).precision *
         (evaluateModel yTrue yProb th).recallScore /
         ((evaluateModel yTrue yProb th).precision +
          (evaluateModel yTrue yProb th).recallScore)) := rfl
  refine ⟨?_, ?_, ?_, ?_, ?_, ?_, ?_⟩
  · intro h; rw [hpre, if_pos h]
  · intro h; rw [hpre, if_neg h]
  · intro h; rw [hrec, if_pos h]
  · intro h; rw [hrec, if_neg h]
  · intro h; rw [hf1, if_pos h]
  · intro h; rw [hf1, if_neg h]
  · intro h
    have hzero : (evaluateModel yTrue yProb th).tp +
        (evaluateModel yTrue yProb th).fp = 0 := by
      have hall : ∀ pr ∈ yTrue.zip (yProb.map fun p => if th ≤ p then 1 else 0),
          pr.2 = 0 := by
        intro pr hmem
        have h2 := (List.of_mem_zip hmem).2
        rcases List.mem_map.mp h2 with ⟨p, hp, hval⟩
        have : ¬ th ≤ p := not_le.mpr (h p hp)
        rw [← hval, if_neg this]
      have hfold := foldl_confusion_no_positives
        (yTrue.zip (yProb.map fun p => if th ≤ p then 1 else 0)) (0, 0, 0, 0) hall
      rw [htp, hfp]
      unfold countConfusion
      rw [hfold.1, hfold.2]
      rfl
    rw [hpre, if_pos hzero]

/-- C8 witness: a test set whose two probabilities both fall below the
0.5 threshold (zero positive predictions) yields precision 0. -/
theorem evaluateModel_guards_spec_witness :
    (∀ p ∈ [(0.3 : ℚ), 0.2], p < 0.5) ∧
    (evaluateModel [1, 0] [(0.3 : ℚ), 0.2] 0.5).precision = 0 := by
  have hlt : ∀ p ∈ [(0.3 : ℚ), 0.2], p < 0.5 := by
    intro p hp
    rcases List.mem_cons.mp hp with h | h
    · rw [h]; norm_num
    · rcases List.mem_cons.mp h with h2 | h2
      · rw [h2]; norm_num
      · exact absurd h2 (List.not_mem_nil p)
  exact ⟨hlt, (evaluateModel_guards_spec [1, 0] [(0.3 : ℚ), 0.2] 0.5).2.2.2.2.2.2 hlt⟩

/-- C9: the seeded shuffle is deterministic and lock-step: it is a pure
function of the two arrays and the seed (equal inputs give equal
outputs); on equal-length arrays the pair of outputs is the single
Fisher-Yates pass applied to the zipped array, so the element pairs at
corresponding indices are preserved (the same permutation is applied to
both); each output is a permutation of its input; and the pass performs
exactly the traced swaps, from the last index down, each drawn index
`j` lying in `[0, i]`. -/
theorem shuffle_deterministic_lockstep {α β : Type _} (a c : List α)
    (b d : List β) (seed : Nat) (hac : a = c) (hbd : b = d)
    (hlen : a.length = b.length) :
    shuffleInPlace a b seed = shuffleInPlace c d seed ∧
    ((shuffleInPlace a b seed).1).zip ((shuffleInPlace a b seed).2) =
      shuffleOne (a.length - 1) seed (a.zip b) ∧
    ((shuffleInPlace a b seed).1).Perm a ∧
    ((shuffleInPlace a b seed).2).Perm b ∧
    (((shuffleInPlace a b seed).1).zip ((shuffleInPlace a b seed).2)).Perm
      (a.zip b) ∧
    shuffleOne (a.length - 1) seed (a.zip b) =
      (shuffleTrace (a.length - 1) seed).foldl
        (fun acc pr => listSwap acc pr.1 pr.2) (a.zip b) ∧
    (∀ pr ∈ shuffleTrace (a.length - 1) seed,
      pr.2 ≤ pr.1 ∧ 1 ≤ pr.1 ∧ pr.1 ≤ a.length - 1) := by
  subst hac
  subst hbd
  have haux : shuffleInPlace a b seed =
      (shuffleOne (a.length - 1) seed a, shuffleOne (a.length - 1) seed b) := by
    unfold shuffleInPlace
    exact shuffleAux_eq _ _ _ _
  refine ⟨rfl, ?_, ?_, ?_, ?_, ?_, ?_⟩
  · rw [haux]
    exact (shuffleOne_zip _ _ _ _ hlen).symm
  · rw [haux]
    exact shuffleOne_perm _ _ _
  · rw [haux]
    exact shuffleOne_perm _ _ _
  · rw [haux]
    rw [← shuffleOne_zip _ _ _ _ hlen]
    exact shuffleOne_perm _ _ _
  · exact shuffleOne_eq_trace_fold _ _ _
  · intro pr h
    exact shuffleTrace_bounds _ _ pr h

/-- C9 witness: the lock-step properties instantiated on concrete
equal-length arrays with the default seed. -/
theorem shuffle_deterministic_lockstep_witness :
    ([10, 20, 30] : List Nat) = [10, 20, 30] ∧
    ([4, 5, 6] : List Nat) = [4, 5, 6] ∧
    ([10, 20, 30] : List Nat).length = ([4, 5, 6] : List Nat).length ∧
    ((shuffleInPlace ([10, 20, 30] : List Nat) ([4, 5, 6] : List Nat) 1337).1).Perm
      [10, 20, 30] := by
  refine ⟨rfl, rfl, by decide, ?_⟩
  exact (shuffle_deterministic_lockstep [10, 20, 30] [10, 20, 30] [4, 5, 6]
    [4, 5, 6] 1337 rfl rfl (by decide)).2.2.1

/-- Reduction of `prepareTensors` on valid inputs. -/
theorem prepareTensors_eq_ok (texts : List String) (labels : List Nat)
    (seqLen maxVocab : Nat) (rs : Bool) (ts : ℚ)
    (h1 : (texts.isEmpty || labels.isEmpty) = false)
    (h2 : ¬ texts.length ≠ labels.length) :
    prepareTensors texts labels seqLen maxVocab rs ts =
      (let sh := shuffleInPlace texts labels 1337
       let tok := fitOnTexts (mkTokenizer maxVocab rs) sh.1
       let padded := padSequences (sh.1.map (encodeOne tok)) seqLen
       let nTest := Nat.max 1 (((padded.length : ℚ) * ts).floor).toNat
       let nTrain := padded.length - nTest
       Except.ok { textsAfter := sh.1
                   labelsAfter := sh.2
                   xTrain := padded.take nTrain
                   xTest := padded.drop nTrain
                   yTrain := sh.2.take nTrain
                   yTest := sh.2.drop nTrain
                   vocabSize := tok.vocabSize
                   nTrain := nTrain
                   nTest := nTest
                   total := padded.length }) := by
  unfold prepareTensors
  rw [h1, if_neg h2]
  rfl

/-- C10: `prepareTensors` mutates its caller's arrays: on every
successful call the `texts`/`labels` arrays end up holding the output of
the in-place seeded shuffle, and there are concrete inputs for which
that differs from the original order (the arrays are not left unchanged
or copied). -/
theorem prepareTensors_mutates_inputs :
    (∀ (texts : List String) (labels : List Nat) (seqLen maxVocab : Nat)
       (rs : Bool) (ts : ℚ) (r : PrepareResult),
       prepareTensors texts labels seqLen maxVocab rs ts = .ok r →
       r.textsAfter = (shuffleInPlace texts labels 1337).1 ∧
       r.labelsAfter = (shuffleInPlace texts labels 1337).2) ∧
    (∃ (texts : List String) (labels : List Nat) (r : PrepareResult),
       prepareTensors texts labels 3 10 false 0.2 = .ok r ∧
       r.textsAfter ≠ texts ∧ r.labelsAfter ≠ labels) := by
  constructor
  · intro texts labels seqLen maxVocab rs ts r hok
    by_cases h1 : (texts.isEmpty || labels.isEmpty) = true
    · have herr : prepareTensors texts labels seqLen maxVocab rs ts =
          .error ("Empty dataset after parsing.") := by
        unfold prepareTensors
        rw [h1]
        rfl
      rw [herr] at hok
      exact Except.noConfusion hok
    · rw [Bool.not_eq_true] at h1
      by_cases h2 : texts.length ≠ labels.length
      · have herr : prepareTensors texts labels seqLen maxVocab rs ts =
            .error ("Texts and labels length mismatch.") := by
          unfold prepareTensors
          rw [h1, if_pos h2]
          rfl
        rw [herr] at hok
        exact Except.noConfusion hok
      · rw [prepareTensors_eq_ok texts labels seqLen maxVocab rs ts h1 h2] at hok
        simp only [Except.ok.injEq] at hok
        subst hok
        exact ⟨rfl, rfl⟩
  · refine ⟨["aa", "bb", "cc"], [1, 2, 3],
      { textsAfter := ["bb", "cc", "aa"]
        labelsAfter := [2, 3, 1]
        xTrain := [[2, 0, 0], [3, 0, 0]]
        xTest := [[4, 0, 0]]
        yTrain := [2, 3]
        yTest := [1]
        vocabSize := 5
        nTrain := 2
        nTest := 1
        total := 3 }, ?_, by decide, by decide⟩
    rw [prepareTensors_eq_ok ["aa", "bb", "cc"] [1, 2, 3] 3 10 false 0.2
      (by decide) (by decide)]
    simp only [Except.ok.injEq]
    have hlen : (padSequences (List.map (encodeOne (fitOnTexts
        (mkTokenizer 10) (shuffleInPlace ["aa", "bb", "cc"] [1, 2, 3]).1))
        (shuffleInPlace ["aa", "bb", "cc"] [1, 2, 3]).1) 3).length = 3 := by
      decide
    have hfloor0 : (((3 : Nat) : ℚ) * 0.2).floor.toNat = 0 := by
      have h1 : ((3 : Nat) : ℚ) * 0.2 = 3 / 5 := by norm_num
      rw [h1]
      have h2 : ((3 : ℚ) / 5).floor = ⌊(3 : ℚ) / 5⌋ := by
        rw [Rat.floor_def', Rat.floor_def]
      rw [h2]
      have h3 : ⌊(3 : ℚ) / 5⌋ = 0 := by
        rw [Int.floor_eq_zero_iff]
        constructor <;> norm_num
      rw [h3]
      rfl
    rw [hlen, hfloor0]
    decide

/-- C10 witness: the universal part applied to the concrete call; the
post-call array contents are the shuffled order. -/
theorem prepareTensors_mutates_inputs_witness :
    prepareTensors ["aa", "bb", "cc"] [1, 2, 3] 3 10 false 0.2 =
      .ok { textsAfter := ["bb", "cc", "aa"]
            labelsAfter := [2, 3, 1]
            xTrain := [[2, 0, 0], [3, 0, 0]]
            xTest := [[4, 0, 0]]
            yTrain := [2, 3]
            yTest := [1]
            vocabSize := 5
            nTrain := 2
            nTest := 1
            total := 3 } ∧
    (["bb", "cc", "aa"] : List String) =
      (shuffleInPlace ["aa", "bb", "cc"] [1, 2, 3] 1337).1 ∧
    ([2, 3, 1] : List Nat) =
      (shuffleInPlace ["aa", "bb", "cc"] [1, 2, 3] 1337).2 := by
  have hcall : prepareTensors ["aa", "bb", "cc"] [1, 2, 3] 3 10 false 0.2 =
      .ok { textsAfter := ["bb", "cc", "aa"]
            labelsAfter := [2, 3, 1]
            xTrain := [[2, 0, 0], [3, 0, 0]]
            xTest := [[4, 0, 0]]
            yTrain := [2, 3]
            yTest := [1]
            vocabSize := 5
            nTrain := 2
            nTest := 1
            total := 3 } := by
    rw [prepareTensors_eq_ok ["aa", "bb", "cc"] [1, 2, 3] 3 10 false 0.2
      (by decide) (by decide)]
    simp only [Except.ok.injEq]
    have hlen : (padSequences (List.map (encodeOne (fitOnTexts
        (mkTokenizer 10) (shuffleInPlace ["aa", "bb", "cc"] [1, 2, 3]).1))
        (shuffleInPlace ["aa", "bb", "cc"] [1, 2, 3]).1) 3).length = 3 := by
      decide
    have hfloor0 : (((3 : Nat) : ℚ) * 0.2).floor.toNat = 0 := by
      have h1 : ((3 : Nat) : ℚ) * 0.2 = 3 / 5 := by norm_num
      rw [h1]
      have h2 : ((3 : ℚ) / 5).floor = ⌊(3 : ℚ) / 5⌋ := by
        rw [Rat.floor_def', Rat.floor_def]
      rw [h2]
      have h3 : ⌊(3 : ℚ) / 5⌋ = 0 := by
        rw [Int.floor_eq_zero_iff]
        constructor <;> norm_num
      rw [h3]
      rfl
    rw [hlen, hfloor0]
    decide
  refine ⟨hcall, ?_, ?_⟩
  · exact (prepareTensors_mutates_inputs.1 ["aa", "bb", "cc"] [1, 2, 3] 3 10
      false 0.2 _ hcall).1
  · exact (prepareTensors_mutates_inputs.1 ["aa", "bb", "cc"] [1, 2, 3] 3 10
      false 0.2 _ hcall).2

/-- Unfolding `splitRuns` on a cons with empty accumulator. -/
theorem splitRuns_cons_nil (c : Char) (cs : List Char) :
    splitRuns (c :: cs) [] =
      (if keptChar c.toLower then splitRuns cs [c.toLower]
       else if (List.isEmpty ([] : List Char)) then splitRuns cs []
       else String.mk (([] : List Char)).reverse :: splitRuns cs []) := rfl

/-- A text all of whose characters are separators (not kept by the
normalization regex after lowercasing) produces no tokens. -/
theorem splitRuns_eq_nil (cs : List Char)
    (h : ∀ c ∈ cs, keptChar c.toLower = false) : splitRuns cs [] = [] := by
  induction cs with
  | nil => rfl
  | cons c cs ih =>
    have hc := h c (List.mem_cons_self c cs)
    rw [splitRuns_cons_nil, hc]
    simp only [Bool.false_eq_true, if_false, List.isEmpty_nil, if_true]
    exact ih (fun d hd => h d (List.mem_cons_of_mem c hd))

/-- `_normalize` of a separator-only text yields no tokens (hence the
empty string in the source). -/
theorem normalizeWords_eq_nil (tok : Tokenizer) (text : String)
    (h : ∀ c ∈ text.data, keptChar c.toLower = false) :
    normalizeWords tok text = [] := by
  unfold normalizeWords
  rw [splitRuns_eq_nil text.data h]
  cases htok : tok.removeStopwords <;> simp

/-- The single row fed to the model by `predictText` always has length
`seqLen`. -/
theorem singlePaddedRow_length (tok : Tokenizer) (seqLen : Nat)
    (text : String) : (singlePaddedRow tok seqLen text).length = seqLen := by
  unfold singlePaddedRow padSequences
  simp only [List.map_cons, List.map_nil, List.headD_cons]
  by_cases h : seqLen ≤ (encodeOne tok text).length
  · rw [if_pos h]
    simpa using Nat.min_eq_left h
  · rw [if_neg h]
    rw [List.length_append, List.length_replicate]
    omega

/-- The `!text` early return of `predictText` fires exactly on the empty
string. -/
theorem predictText_empty (predict : List Nat → ℚ) (tok : Tokenizer)
    (seqLen : Nat) (th : ℚ) :
    predictText predict tok seqLen th "" =
      .ok { prob := none, pred := none } := rfl

/-- On a fitted tokenizer and a non-empty text, `predictText` encodes,
pads and runs the model on the single padded row. -/
theorem predictText_run (predict : List Nat → ℚ) (tok : Tokenizer)
    (seqLen : Nat) (th : ℚ) (text : String) (hfit : tok.fitted = true)
    (hne : text ≠ "") :
    predictText predict tok seqLen th text =
      .ok { prob := some (predict (singlePaddedRow tok seqLen text)),
            pred := some (if th ≤ predict (singlePaddedRow tok seqLen text)
              then 1 else 0) } := by
  have hbeq : (text == "") = false := beq_eq_false_iff_ne.mpr hne
  have henc : textsToSequences tok [text] = .ok [encodeOne tok text] := by
    unfold textsToSequences
    rw [hfit]
    rfl
  unfold predictText
  rw [hbeq, henc]
  rfl

/-- The row for a text with no tokens is all PAD. -/
theorem singlePaddedRow_blank (tok : Tokenizer) (seqLen : Nat) (text : String)
    (h : normalizeWords tok text = []) :
    singlePaddedRow tok seqLen text = List.replicate seqLen 0 := by
  unfold singlePaddedRow padSequences encodeOne
  rw [h]
  simp only [List.map_nil, List.map_cons, List.headD_cons]
  cases seqLen with
  | zero => rfl
  | succ n =>
    rw [if_neg (by simp)]
    simp

/-- C4 counterexample: with a live model (forward pass constantly 1/2),
`predictText` on the whitespace-only text " " does NOT return the
`{prob: NaN, pred: null}` no-op contract: `!text` is false for a
non-empty blank string, so the text is encoded to an all-PAD row, the
model runs and a real probability is returned. -/
theorem predictText_blank_not_noop :
    predictText constHalf
        (fitOnTexts (mkTokenizer 10 false) ["good bad"]) 4 0 " " =
      .ok { prob := some ((1 : ℚ) / 2), pred := some 1 } ∧
    Except.ok { prob := some ((1 : ℚ) / 2), pred := some 1 } ≠
      (Except.ok { prob := none, pred := none } : Except String PredictOut) := by
  constructor
  · have h := predictText_run constHalf
      (fitOnTexts (mkTokenizer 10 false) ["good bad"]) 4 0 " " rfl (by decide)
    rw [h]
    have hx : constHalf (singlePaddedRow
        (fitOnTexts (mkTokenizer 10 false) ["good bad"]) 4 " ") = (1 : ℚ) / 2 :=
      rfl
    rw [hx]
    have hif : (if (0 : ℚ) ≤ (1 : ℚ) / 2 then (1 : Nat) else 0) = 1 :=
      if_pos (by norm_num)
    rw [hif]
  · intro hcon
    have h2 := congrArg PredictOut.prob (Except.ok.inj hcon)
    exact Option.noConfusion h2

/-- C4 amended: with a live model, `predictText` returns the no-op
result `{prob: NaN, pred: null}` without running the model exactly for
the empty string; every other text, whitespace-only texts included, is
normalized, encoded, padded to `seqLen` (the row always has length
`seqLen`), and one forward pass runs with thresholding at the given
threshold; a text with no kept characters yields the all-PAD row. -/
theorem predictText_empty_amended (predict : List Nat → ℚ) (tok : Tokenizer)
    (seqLen : Nat) (th : ℚ) (text : String) (hfit : tok.fitted = true) :
    (text = "" → predictText predict tok seqLen th text =
      .ok { prob := none, pred := none }) ∧
    (text ≠ "" → predictText predict tok seqLen th text =
      .ok { prob := some (predict (singlePaddedRow tok seqLen text)),
            pred := some (if th ≤ predict (singlePaddedRow tok seqLen text)
              then 1 else 0) }) ∧
    (singlePaddedRow tok seqLen text).length = seqLen ∧
    ((∀ c ∈ text.data, keptChar c.toLower = false) →
      singlePaddedRow tok seqLen text = List.replicate seqLen 0) := by
  refine ⟨?_, ?_, singlePaddedRow_length tok seqLen text, ?_⟩
  · intro h
    subst h
    exact predictText_empty predict tok seqLen th
  · intro h
    exact predictText_run predict tok seqLen th text hfit h
  · intro h
    exact singlePaddedRow_blank tok seqLen text (normalizeWords_eq_nil tok text h)

/-- C4 amended, witness: concrete fitted tokenizer; the empty string is
a no-op, and the text `"?!"` (no kept characters) gets the all-PAD row
of length `seqLen = 4`. -/
theorem predictText_empty_amended_witness :
    (fitOnTexts (mkTokenizer 10 false) ["good bad"]).fitted = true ∧
    predictText constHalf
        (fitOnTexts (mkTokenizer 10 false) ["good bad"]) 4 0 "" =
      .ok { prob := none, pred := none } ∧
    (singlePaddedRow (fitOnTexts (mkTokenizer 10 false) ["good bad"]) 4
      "?!").length = 4 ∧
    singlePaddedRow (fitOnTexts (mkTokenizer 10 false) ["good bad"]) 4 "?!" =
      List.replicate 4 0 := by
  refine ⟨rfl, ?_, ?_, ?_⟩
  · exact (predictText_empty_amended constHalf
      (fitOnTexts (mkTokenizer 10 false) ["good bad"]) 4 0 "" rfl).1 rfl
  · exact (predictText_empty_amended constHalf
      (fitOnTexts (mkTokenizer 10 false) ["good bad"]) 4 0 "?!" rfl).2.2.1
  · exact (predictText_empty_amended constHalf
      (fitOnTexts (mkTokenizer 10 false) ["good bad"]) 4 0 "?!" rfl).2.2.2
      (by decide)

/-- C6: after `fitOnTexts` on any corpus, ids are assigned starting at
2 to the ranked tokens: the word index is the two reserved entries
followed by the top tokens paired with consecutive ids from 2; the rank
order is sorted by stored count descending; the stored counts are the
corpus frequencies; restricted to any fixed count the rank order equals
the map order, which is the first-seen order of the corpus, with
distinct keys exactly the distinct normalized tokens; the number of
assigned tokens is `min (numWords - 2) (number of distinct tokens)` and
`vocabSize` is 2 plus that; in particular `maxVocab = 5` on a corpus of
10 distinct tokens gives `vocabSize = 5`. -/
theorem fitOnTexts_vocab_spec (numWords : Nat) (rs : Bool)
    (texts : List String) :
    (fitOnTexts (mkTokenizer numWords rs) texts).wordIndex =
        (mkTokenizer numWords rs).wordIndex ++
          (List.enumFrom 2 (((List.insertionSort byFreqDesc
            (countTokens (mkTokenizer numWords rs) texts)).take
              (numWords - 2)).map Prod.fst)).map (fun p => (p.2, p.1)) ∧
    List.Sorted byFreqDesc (List.insertionSort byFreqDesc
      (countTokens (mkTokenizer numWords rs) texts)) ∧
    (∀ w, lookupCount (countTokens (mkTokenizer numWords rs) texts) w =
      (corpusTokens (mkTokenizer numWords rs) texts).count w) ∧
    (∀ c, (List.insertionSort byFreqDesc
        (countTokens (mkTokenizer numWords rs) texts)).filter
          (fun p => p.2 == c) =
      (countTokens (mkTokenizer numWords rs) texts).filter
        (fun p => p.2 == c)) ∧
    mapKeys (countTokens (mkTokenizer numWords rs) texts) =
      firstOccurrences (corpusTokens (mkTokenizer numWords rs) texts) ∧
    (mapKeys (countTokens (mkTokenizer numWords rs) texts)).Nodup ∧
    (∀ w, w ∈ mapKeys (countTokens (mkTokenizer numWords rs) texts) ↔
      w ∈ corpusTokens (mkTokenizer numWords rs) texts) ∧
    (((List.insertionSort byFreqDesc
      (countTokens (mkTokenizer numWords rs) texts)).take
        (numWords - 2)).map Prod.fst).length =
      min (numWords - 2) (countTokens (mkTokenizer numWords rs) texts).length ∧
    (fitOnTexts (mkTokenizer numWords rs) texts).vocabSize =
      2 + min (numWords - 2)
        (countTokens (mkTokenizer numWords rs) texts).length ∧
    (fitOnTexts (mkTokenizer 5 false) ["q w e r t y u i o p"]).vocabSize = 5 := by
  set tok0 := mkTokenizer numWords rs with htok0def
  set freq := countTokens tok0 texts with hfreqdef
  set sorted := List.insertionSort byFreqDesc freq with hsorteddef
  set top := (sorted.take (numWords - 2)).map Prod.fst with htopdef
  have hkeys : mapKeys freq = firstOccurrences (corpusTokens tok0 texts) := by
    show mapKeys ((corpusTokens tok0 texts).foldl bumpFreq []) = _
    rw [mapKeys_foldl_bumpFreq]
    rfl
  have hnodup : (mapKeys freq).Nodup := by
    rw [hkeys]
    exact firstOccurrencesAux_nodup _ []
  have hmemiff : ∀ w, w ∈ mapKeys freq ↔ w ∈ corpusTokens tok0 texts := by
    intro w
    rw [hkeys]
    constructor
    · intro h
      exact (firstOccurrencesAux_mem _ [] w h).1
    · intro h
      rcases firstOccurrencesAux_complete _ [] w h with h2 | h2
      · exact absurd ((contains_true_iff [] w).mp h2) (List.not_mem_nil w)
      · exact h2
  have hperm : sorted.Perm freq := List.perm_insertionSort byFreqDesc freq
  have hsortedkeys : (sorted.map Prod.fst).Nodup := by
    have hp2 : (sorted.map Prod.fst).Perm (mapKeys freq) := hperm.map Prod.fst
    exact hp2.nodup_iff.mpr hnodup
  have htopfresh : ∀ w ∈ top, w ∉ mapKeys tok0.wordIndex := by
    intro w hw
    rcases List.mem_map.mp hw with ⟨p, hp, hpw⟩
    have hpfreq : p ∈ freq := hperm.mem_iff.mp (List.mem_of_mem_take hp)
    have hkey : w ∈ mapKeys freq := List.mem_map.mpr ⟨p, hpfreq, hpw⟩
    have hne := corpusTokens_ne_reserved tok0 texts w ((hmemiff w).mp hkey)
    intro hcon
    have hres : mapKeys tok0.wordIndex =
        [(("<PAD>") : String), (("<OOV>") : String)] := rfl
    rw [hres] at hcon
    rcases List.mem_cons.mp hcon with h2 | h2
    · exact hne.1 h2
    · rcases List.mem_cons.mp h2 with h3 | h3
      · exact hne.2 h3
      · exact List.not_mem_nil w h3
  have htopnodup : top.Nodup := by
    show ((sorted.take (numWords - 2)).map Prod.fst).Nodup
    rw [List.map_take]
    exact hsortedkeys.sublist (List.take_sublist _ _)
  have hwi : (fitOnTexts tok0 texts).wordIndex =
      tok0.wordIndex ++ (List.enumFrom 2 top).map (fun p => (p.2, p.1)) := by
    show (assignIds top 2 tok0.wordIndex tok0.indexWord).1 = _
    exact assignIds_fst top 2 tok0.wordIndex tok0.indexWord htopfresh htopnodup
  have hlen : top.length = min (numWords - 2) freq.length := by
    show ((sorted.take (numWords - 2)).map Prod.fst).length = _
    rw [List.length_map, List.length_take, hperm.length_eq]
  have hvocab : (fitOnTexts tok0 texts).vocabSize =
      2 + min (numWords - 2) freq.length := by
    show (assignIds top 2 tok0.wordIndex tok0.indexWord).1.length = _
    rw [assignIds_fst top 2 tok0.wordIndex tok0.indexWord htopfresh htopnodup,
      List.length_append, List.length_map, List.enumFrom_length]
    show 2 + top.length = _
    rw [hlen]
  exact ⟨hwi, List.sorted_insertionSort byFreqDesc freq,
    lookupCount_countTokens tok0 texts,
    fun c => filter_insertionSort freq c, hkeys, hnodup, hmemiff, hlen, hvocab,
    by decide⟩

/-- An absent key looks up to the OOV id 1 (`wordIndex[w] ?? 1`). -/
theorem lookupId_not_mem (m : List (String × Nat)) (w : String)
    (h : w ∉ mapKeys m) : lookupId m w = 1 := by
  unfold lookupId
  have hnone : m.find? (fun p => p.1 == w) = none := by
    rw [List.find?_eq_none]
    intro p hp hcon
    have hpeq : p.1 = w := by simpa using hcon
    exact h (List.mem_map.mpr ⟨p, hp, hpeq⟩)
  rw [hnone]

/-- On a map with distinct keys, a present entry looks up to its id. -/
theorem lookupId_of_mem (m : List (String × Nat)) (w : String) (i : Nat)
    (hnodup : (mapKeys m).Nodup) (hmem : (w, i) ∈ m) :
    lookupId m w = i := by
  induction m with
  | nil => exact absurd hmem (List.not_mem_nil _)
  | cons p rest ih =>
    rcases List.mem_cons.mp hmem with h2 | h2
    · subst h2
      unfold lookupId
      rw [List.find?_cons_of_pos _ (by simp)]
    · have hkey : w ∈ mapKeys rest := List.mem_map.mpr ⟨(w, i), h2, rfl⟩
      have hp : p.1 ≠ w := by
        intro hcon
        exact (List.nodup_cons.mp hnodup).1 (hcon ▸ hkey)
      unfold lookupId
      rw [List.find?_cons_of_neg _ (by simp [hp])]
      exact ih (List.nodup_cons.mp hnodup).2 h2

/-- After fitting, the word-index keys are distinct: the two reserved
keys followed by the distinct assigned tokens, which contain only kept
characters and so differ from the reserved keys. -/
theorem fitOnTexts_keys_nodup (numWords : Nat) (rs : Bool)
    (texts : List String) :
    (mapKeys ((fitOnTexts (mkTokenizer numWords rs) texts).wordIndex)).Nodup := by
  have hkeys : mapKeys (countTokens (mkTokenizer numWords rs) texts) =
      firstOccurrences (corpusTokens (mkTokenizer numWords rs) texts) := by
    show mapKeys ((corpusTokens _ _).foldl bumpFreq []) = _
    rw [mapKeys_foldl_bumpFreq]
    rfl
  have hnodup : (mapKeys (countTokens (mkTokenizer numWords rs) texts)).Nodup := by
    rw [hkeys]
    exact firstOccurrencesAux_nodup _ []
  have hperm : (List.insertionSort byFreqDesc
      (countTokens (mkTokenizer numWords rs) texts)).Perm
      (countTokens (mkTokenizer numWords rs) texts) :=
    List.perm_insertionSort byFreqDesc _
  have hsortedkeys : ((List.insertionSort byFreqDesc
      (countTokens (mkTokenizer numWords rs) texts)).map Prod.fst).Nodup :=
    (hperm.map Prod.fst).nodup_iff.mpr hnodup
  have htopfresh : ∀ w ∈ ((List.insertionSort byFreqDesc
      (countTokens (mkTokenizer numWords rs) texts)).take
        (numWords - 2)).map Prod.fst,
      w ∉ mapKeys (mkTokenizer numWords rs).wordIndex := by
    intro w hw
    rcases List.mem_map.mp hw with ⟨p, hp, hpw⟩
    have hpfreq : p ∈ countTokens (mkTokenizer numWords rs) texts :=
      hperm.mem_iff.mp (List.mem_of_mem_take hp)
    have hkey : w ∈ mapKeys (countTokens (mkTokenizer numWords rs) texts) :=
      List.mem_map.mpr ⟨p, hpfreq, hpw⟩
    have hcorp : w ∈ corpusTokens (mkTokenizer numWords rs) texts := by
      rw [hkeys] at hkey
      exact (firstOccurrencesAux_mem _ [] w hkey).1
    have hne := corpusTokens_ne_reserved (mkTokenizer numWords rs) texts w hcorp
    intro hcon
    have hres : mapKeys (mkTokenizer numWords rs).wordIndex =
        [(("<PAD>") : String), (("<OOV>") : String)] := rfl
    rw [hres] at hcon
    rcases List.mem_cons.mp hcon with h2 | h2
    · exact hne.1 h2
    · rcases List.mem_cons.mp h2 with h3 | h3
      · exact hne.2 h3
      · exact List.not_mem_nil w h3
  have htopnodup : (((List.insertionSort byFreqDesc
      (countTokens (mkTokenizer numWords rs) texts)).take
        (numWords - 2)).map Prod.fst).Nodup := by
    rw [List.map_take]
    exact hsortedkeys.sublist (List.take_sublist _ _)
  have hwi := assignIds_fst
    (((List.insertionSort byFreqDesc
      (countTokens (mkTokenizer numWords rs) texts)).take
        (numWords - 2)).map Prod.fst)
    2 (mkTokenizer numWords rs).wordIndex (mkTokenizer numWords rs).indexWord
    htopfresh htopnodup
  show (mapKeys (assignIds
    (((List.insertionSort byFreqDesc
      (countTokens (mkTokenizer numWords rs) texts)).take
        (numWords - 2)).map Prod.fst)
    2 (mkTokenizer numWords rs).wordIndex
    (mkTokenizer numWords rs).indexWord).1).Nodup
  rw [hwi]
  unfold mapKeys
  rw [List.map_append]
  refine List.nodup_append.mpr ⟨?_, ?_, ?_⟩
  · show ([(("<PAD>") : String), ("<OOV>")]).Nodup
    decide
  · rw [List.map_map]
    show (List.map Prod.snd (List.enumFrom 2 _)).Nodup
    rw [List.enumFrom_map_snd]
    exact htopnodup
  · intro a ha hb
    rw [List.map_map] at hb
    have hb2 : a ∈ List.map Prod.snd (List.enumFrom 2
        (((List.insertionSort byFreqDesc
          (countTokens (mkTokenizer numWords rs) texts)).take
            (numWords - 2)).map Prod.fst)) := hb
    rw [List.enumFrom_map_snd] at hb2
    exact htopfresh a hb2 ha

/-- On a map with distinct keys, `find?` by key retrieves exactly the
present entry. -/
theorem find?_key_eq_some (m : List (String × Nat)) (w : String) (i : Nat)
    (hnodup : (mapKeys m).Nodup) (hmem : (w, i) ∈ m) :
    m.find? (fun p => p.1 == w) = some (w, i) := by
  induction m with
  | nil => exact absurd hmem (List.not_mem_nil _)
  | cons p rest ih =>
    rcases List.mem_cons.mp hmem with h2 | h2
    · subst h2
      exact List.find?_cons_of_pos _ (by simp)
    · have hkey : w ∈ mapKeys rest := List.mem_map.mpr ⟨(w, i), h2, rfl⟩
      have hp : p.1 ≠ w := by
        intro hcon
        exact (List.nodup_cons.mp hnodup).1 (hcon ▸ hkey)
      rw [List.find?_cons_of_neg _ (by simp [hp])]
      exact ih (List.nodup_cons.mp hnodup).2 h2

/-- An absent key makes the `find?` by key miss. -/
theorem find?_key_eq_none (m : List (String × Nat)) (w : String)
    (h : w ∉ mapKeys m) : m.find? (fun p => p.1 == w) = none := by
  rw [List.find?_eq_none]
  intro p hp hcon
  have hpeq : p.1 = w := by simpa using hcon
  exact h (List.mem_map.mpr ⟨p, hp, hpeq⟩)

/-- Away from the inherited `Object.prototype` keys, the faithful
lookup is the own-property lookup with the OOV default. -/
theorem lookupIdJS_agrees (m : List (String × Nat)) (w : String)
    (h : w ∉ objectPrototypeKeys) : lookupIdJS m w = .num (lookupId m w) := by
  unfold lookupIdJS lookupId
  cases hf : m.find? (fun p => p.1 == w) with
  | some p => rfl
  | none =>
    have hc : objectPrototypeKeys.contains w = false := by
      rw [Bool.eq_false_iff]
      intro hcon
      exact h ((contains_true_iff _ _).mp hcon)
    rw [hc]
    rfl

/-- C7: the claim (every normalized token not assigned an id during
fit maps to the OOV id 1) states the code's own documented OOV
contract, but the code misses it on the token `"constructor"`: since
`wordIndex` is a plain object, the lookup of an unassigned
`"constructor"` finds the inherited `Object.prototype.constructor`,
which is not nullish, so `?? 1` never fires and the sequence receives
that inherited value instead of 1.  Every other unassigned normalized
token does map to 1, assigned tokens map to their ids, a fitted
tokenizer never throws, and a blank text encodes to the empty
sequence; the failing input is the text `"constructor"` against a
tokenizer fitted on `["good bad"]`. -/
theorem textsToSequences_constructor_bug :
    (∀ (numWords : Nat) (rs : Bool) (trainTexts texts : List String),
      textsToSequencesJS (fitOnTexts (mkTokenizer numWords rs) trainTexts)
          texts =
        .ok (texts.map (encodeOneJS (fitOnTexts (mkTokenizer numWords rs)
          trainTexts)))) ∧
    (∀ (m : List (String × Nat)) (w : String),
      w ∉ mapKeys m → w ∉ objectPrototypeKeys → lookupIdJS m w = .num 1) ∧
    (∀ (m : List (String × Nat)) (w : String) (i : Nat),
      (mapKeys m).Nodup → (w, i) ∈ m → lookupIdJS m w = .num i) ∧
    (∀ (m : List (String × Nat)) (w : String),
      w ∉ mapKeys m → w ∈ objectPrototypeKeys →
        lookupIdJS m w = .inherited w) ∧
    (∀ (numWords : Nat) (rs : Bool) (trainTexts : List String) (t : String),
      normalizeWords (fitOnTexts (mkTokenizer numWords rs) trainTexts) t = [] →
      encodeOneJS (fitOnTexts (mkTokenizer numWords rs) trainTexts) t = []) ∧
    (("constructor") ∉ mapKeys ((fitOnTexts (mkTokenizer 10 false)
      ["good bad"]).wordIndex)) ∧
    textsToSequencesJS (fitOnTexts (mkTokenizer 10 false) ["good bad"])
      [("constructor")] = .ok [[JsLookup.inherited ("constructor")]] ∧
    JsLookup.inherited ("constructor") ≠ JsLookup.num 1 := by
  refine ⟨fun numWords rs trainTexts texts => rfl, ?_, ?_, ?_, ?_,
    by decide, rfl, by decide⟩
  · intro m w hm hp
    unfold lookupIdJS
    rw [find?_key_eq_none m w hm]
    have hc : objectPrototypeKeys.contains w = false := by
      rw [Bool.eq_false_iff]
      intro hcon
      exact hp ((contains_true_iff _ _).mp hcon)
    rw [hc]
    rfl
  · intro m w i hnodup hmem
    unfold lookupIdJS
    rw [find?_key_eq_some m w i hnodup hmem]
  · intro m w hm hp
    unfold lookupIdJS
    rw [find?_key_eq_none m w hm,
      (contains_true_iff objectPrototypeKeys w).mpr hp]
    rfl
  · intro numWords rs trainTexts t h
    unfold encodeOneJS
    rw [h]
    rfl

/-- C7 witness: on the tokenizer fitted on `["good bad"]`, the
unassigned token `"zzz"` maps to the OOV id 1, the assigned token
`"good"` maps to its id 2, and the unassigned token `"constructor"`
maps to the inherited prototype value, not 1. -/
theorem textsToSequences_constructor_bug_witness :
    lookupIdJS ((fitOnTexts (mkTokenizer 10 false) ["good bad"]).wordIndex)
      ("zzz") = JsLookup.num 1 ∧
    lookupIdJS ((fitOnTexts (mkTokenizer 10 false) ["good bad"]).wordIndex)
      ("good") = JsLookup.num 2 ∧
    lookupIdJS ((fitOnTexts (mkTokenizer 10 false) ["good bad"]).wordIndex)
      ("constructor") = JsLookup.inherited ("constructor") ∧
    encodeOneJS (fitOnTexts (mkTokenizer 10 false) ["good bad"]) (" ") = [] := by
  refine ⟨?_, ?_, ?_, ?_⟩
  · exact textsToSequences_constructor_bug.2.1
      ((fitOnTexts (mkTokenizer 10 false) ["good bad"]).wordIndex)
      ("zzz") (by decide) (by decide)
  · exact textsToSequences_constructor_bug.2.2.1
      ((fitOnTexts (mkTokenizer 10 false) ["good bad"]).wordIndex)
      ("good") 2 (by decide) (by decide)
  · exact textsToSequences_constructor_bug.2.2.2.1
      ((fitOnTexts (mkTokenizer 10 false) ["good bad"]).wordIndex)
      ("constructor") (by decide) (by decide)
  · exact textsToSequences_constructor_bug.2.2.2.2.1 10 false ["good bad"]
      (" ") (by decide)

/-- C3 amended, witness: a missing `vocabSize` triggers the
configuration error. -/
theorem createModel_guard_amended_witness :
    createModel { vocabSize := none, seqLen := some 3 } ({} : RnnState) =
      .error ("vocabSize and seqLen are required.") :=
  (createModel_guard_amended { vocabSize := none, seqLen := some 3 }
    {}).mpr (Or.inl rfl)

/-- C6 witness: the spec example — `maxVocab = 5` on a corpus of 10
distinct tokens yields `vocabSize = 5`. -/
theorem fitOnTexts_vocab_spec_witness :
    (fitOnTexts (mkTokenizer 5 false) ["q w e r t y u i o p"]).vocabSize =
      2 + min (5 - 2) (countTokens (mkTokenizer 5 false)
        ["q w e r t y u i o p"]).length ∧
    (countTokens (mkTokenizer 5 false) ["q w e r t y u i o p"]).length = 10 ∧
    (fitOnTexts (mkTokenizer 5 false) ["q w e r t y u i o p"]).vocabSize = 5 := by
  refine ⟨?_, by decide, ?_⟩
  · exact (fitOnTexts_vocab_spec 5 false
      ["q w e r t y u i o p"]).2.2.2.2.2.2.2.2.1
  · exact (fitOnTexts_vocab_spec 5 false
      ["q w e r t y u i o p"]).2.2.2.2.2.2.2.2.2

end Proto
